import Mathlib

/-!
Verification of the resilient routing engine.

Shallow embedding of the core routing system: the `Graph` model, the
Dijkstra and Bellman-Ford path algorithms, the algorithm selector, the
result validator, the idempotency cache, the routing engine's
`compute_route` orchestration, the circuit breaker, and the orchestration
state machines.  Edge weights and wall-clock times are modelled as exact
integers: the Python code uses floats, every concrete scenario of the
specification uses integer-valued weights and times, and float arithmetic
on them is exact, while the algorithms only ever add and compare weights.
The validator's `1e-6` tolerance check `|actual - expected| > 1e-6` is
embedded in the equivalent scaled form `1000000 * |actual - expected| > 1`.
Python's
`float("inf")` is modelled as `none : Option ℤ`.  Python dictionaries
are modelled as insertion-ordered association lists, matching CPython's
insertion-order iteration semantics.
-/

namespace Routing

/-- Extended weight: `none` models `float("inf")`. -/
abbrev EW := Option ℤ

/-- `dist + w` with `inf + w = inf`, as in Python float arithmetic. -/
def addE (d : EW) (w : ℤ) : EW := d.map (· + w)

/-- Strict comparison `a < b` on extended weights: `inf < x` is false,
`x < inf` is true for finite `x`, as in Python float comparison. -/
def ltE : EW → EW → Bool
  | some a, some b => decide (a < b)
  | some _, none => true
  | none, _ => false

/-- Float equality `a == b` on extended weights (`inf == inf` is true). -/
def eqE (a b : EW) : Bool := decide (a = b)

/-- Pointwise function update, modelling `dict[k] = v`. -/
def upd {α : Type} (f : String → α) (k : String) (v : α) : String → α :=
  fun x => if x = k then v else f x

/-- A directed edge `(source, target, weight)`. -/
abbrev Edge := String × String × ℤ

/-- Directed weighted graph: adjacency map `source -> (target -> weight)`,
modelled as an insertion-ordered association list exactly like the Python
dict-of-dicts in `core/graph.py`. -/
structure Graph where
  adj : List (String × List (String × ℤ))
  deriving Repr, DecidableEq

/-- The empty graph (`Graph()`). -/
def Graph.empty : Graph := ⟨[]⟩

/-- Update an inner neighbour map: replace the weight in place if the
target is already present (keeping its position), else append. -/
def addInner (ns : List (String × ℤ)) (t : String) (w : ℤ) : List (String × ℤ) :=
  match ns with
  | [] => [(t, w)]
  | p :: rest => if p.1 = t then (t, w) :: rest else p :: addInner rest t w

/-- Update the outer adjacency list at key `s` with `addInner`. -/
def setKey (l : List (String × List (String × ℤ))) (s t : String) (w : ℤ) :
    List (String × List (String × ℤ)) :=
  l.map (fun p => if p.1 = s then (p.1, addInner p.2 t w) else p)

/-- Ensure a key is present in the adjacency list (`if target not in
self._adj: self._adj[target] = dict()`). -/
def ensureNode (l : List (String × List (String × ℤ))) (t : String) :
    List (String × List (String × ℤ)) :=
  if (l.find? (fun p => p.1 = t)).isSome then l else l ++ [(t, [])]

/-- `Graph.add_edge`: inserts the edge and guarantees the target is
present as a node (with an empty neighbour map) as in the source. -/
def Graph.addEdge (g : Graph) (s t : String) (w : ℤ) : Graph :=
  ⟨ensureNode
    (if (g.adj.find? (fun p => p.1 = s)).isSome then setKey g.adj s t w
     else g.adj ++ [(s, [(t, w)])]) t⟩

/-- `Graph.nodes()`: the keys of the adjacency map, in insertion order. -/
def Graph.nodes (g : Graph) : List String := g.adj.map Prod.fst

/-- `Graph.neighbors(node)`: the neighbour map of a node (`{}` if absent). -/
def Graph.neighbors (g : Graph) (n : String) : List (String × ℤ) :=
  ((g.adj.find? (fun p => p.1 = n)).map Prod.snd).getD []

/-- `Graph.edges()`: all `(source, target, weight)` triples in iteration
order. -/
def Graph.edges (g : Graph) : List Edge :=
  (g.adj.map (fun p => p.2.map (fun q => (p.1, q.1, q.2)))).flatten

/-- `Graph.has_negative_weights()`. -/
def Graph.hasNegativeWeights (g : Graph) : Bool :=
  (g.edges).any (fun e => decide (e.2.2 < 0))

/-- `Graph.from_edge_list`. -/
def Graph.fromEdgeList (es : List Edge) : Graph :=
  es.foldl (fun g e => g.addEdge e.1 e.2.1 e.2.2) Graph.empty

/-- Weight of the edge `a -> b`, if present. -/
def wOf (g : Graph) (a b : String) : Option ℤ :=
  ((g.neighbors a).find? (fun q => q.1 = b)).map Prod.snd

/-- Well-formedness of a graph as produced by `add_edge`: node keys are
distinct, each neighbour map has distinct keys, and every edge target is
itself a node. -/
def Wf (g : Graph) : Prop :=
  g.nodes.Nodup ∧ (∀ p ∈ g.adj, (p.2.map Prod.fst).Nodup) ∧
    (∀ p ∈ g.adj, ∀ q ∈ p.2, q.1 ∈ g.nodes)

/-- A nonempty node list forms a chain if every consecutive pair is an
edge of the graph. -/
def isChain (g : Graph) : List String → Bool
  | [] => false
  | [_] => true
  | a :: b :: rest => (wOf g a b).isSome && isChain g (b :: rest)

/-- Total weight of a node list along the graph's edges. -/
def walkWt (g : Graph) : List String → ℤ
  | [] => 0
  | [_] => 0
  | a :: b :: rest => (wOf g a b).getD 0 + walkWt g (b :: rest)

/-- `l` is a walk in `g` from `s` to `t`. -/
def Walks (g : Graph) (s t : String) (l : List String) : Prop :=
  isChain g l = true ∧ l.head? = some s ∧ l.getLast? = some t

/-- `t` is reachable from `s` in `g`. -/
def Reach (g : Graph) (s t : String) : Prop := ∃ l, Walks g s t l

/-- Stability of a distance map: no edge can be relaxed. -/
def stableD (g : Graph) (d : String → EW) : Prop :=
  ∀ e ∈ g.edges, ltE (addE (d e.1) e.2.2) (d e.2.1) = false

/-- Errors raised by the path algorithms. -/
inductive Err where
  | nodeNotFound (n : String)
  | negativeWeight
  | noPath
  | negCycle (cycle : List String) (cost : ℤ)
  | badHint
  deriving Repr, DecidableEq

/-- One relaxation attempt of a single edge (state: dist, prev, updated). -/
def bfRelax (st : (String → EW) × (String → Option String) × Bool) (e : Edge) :
    (String → EW) × (String → Option String) × Bool :=
  if ltE (addE (st.1 e.1) e.2.2) (st.1 e.2.1) then
    (upd st.1 e.2.1 (addE (st.1 e.1) e.2.2), upd st.2.1 e.2.1 (some e.1), true)
  else st

/-- One full relaxation pass over all edges. -/
def bfPass (g : Graph) (d : String → EW) (p : String → Option String) :
    (String → EW) × (String → Option String) × Bool :=
  g.edges.foldl bfRelax (d, p, false)

/-- The main Bellman-Ford loop: up to `k` passes, stopping early when a
pass performs no update. -/
def bfLoop (g : Graph) : Nat → (String → EW) → (String → Option String) →
    (String → EW) × (String → Option String)
  | 0, d, p => (d, p)
  | k+1, d, p =>
    let st := bfPass g d p
    if st.2.2 then bfLoop g k st.1 st.2.1 else (st.1, st.2.1)

/-- First edge that can still be relaxed, if any. -/
def findRelaxable (g : Graph) (d : String → EW) : Option Edge :=
  g.edges.find? (fun e => ltE (addE (d e.1) e.2.2) (d e.2.1))

/-- The backward cycle-reconstruction walk of `_detect_negative_cycle`:
append the current node, then follow any predecessor whose relaxed
distance matches, until a repeat or the node-count bound.  `n` is the
number of nodes (`len(dist)` in the source). -/
def cycleSearch (g : Graph) (d : String → EW) (n : Nat) :
    Nat → List String → List String → String → List String
  | 0, cycle, _, _ => cycle
  | f+1, cycle, visited, current =>
    if current ∉ visited ∧ cycle.length < n then
      let cycle2 := cycle ++ [current]
      let visited2 := current :: visited
      let current2 :=
        match g.edges.find?
            (fun e => decide (e.2.1 = current) && eqE (addE (d e.1) e.2.2) (d current)) with
        | some e => e.1
        | none => current
      cycleSearch g d n f cycle2 visited2 current2
    else cycle

/-- Sum, over consecutive pairs of the (pre-reversal) cycle list, of the
first matching edge weight; pairs with no matching edge contribute 0. -/
def cycleCostOf (g : Graph) (cycle : List String) : ℤ :=
  (cycle.zip cycle.tail).foldl
    (fun acc p =>
      acc + ((g.edges.find?
        (fun e => decide (e.1 = p.1) && decide (e.2.1 = p.2))).map
          (fun e => e.2.2)).getD 0) 0

/-- `BellmanFordAlgorithm._detect_negative_cycle`. -/
def detectNegativeCycle (g : Graph) (d : String → EW) :
    Option (List String × ℤ) :=
  match findRelaxable g d with
  | none => none
  | some e =>
    let cyc := cycleSearch g d g.nodes.length (g.nodes.length + 1)
      [e.2.1] [e.2.1] e.1
    some (cyc.reverse, cycleCostOf g cyc)

/-- Predecessor-chain reconstruction (`_reconstruct_path` builds the
reversed path; the loop is bounded by explicit fuel, which the theorems
only use where the predecessor chain is acyclic). -/
def chainList : Nat → (String → Option String) → String → List String
  | 0, _, node => [node]
  | f+1, prev, node =>
    match prev node with
    | none => [node]
    | some pr => node :: chainList f prev pr

/-- `BellmanFordAlgorithm.compute`. -/
def bellmanFord (g : Graph) (s t : String) : Except Err (List String × ℤ) :=
  if s ∉ g.nodes then .error (.nodeNotFound s)
  else if t ∉ g.nodes then .error (.nodeNotFound t)
  else
    let n := g.nodes.length
    let d0 : String → EW := fun v => if v = s then some 0 else none
    let p0 : String → Option String := fun _ => none
    let dp := bfLoop g (n - 1) d0 p0
    match detectNegativeCycle g dp.1 with
    | some (cyc, cost) => .error (.negCycle cyc cost)
    | none =>
      if dp.1 t = none then .error .noPath
      else .ok ((chainList n dp.2 t).reverse, (dp.1 t).getD 0)

/-- Lexicographic comparison of strings as lists of Unicode code
points, exactly Python's `<=` on `str` (which `heapq` uses for the
second tuple component). -/
def codeLe : List Char → List Char → Bool
  | [], _ => true
  | _ :: _, [] => false
  | a :: as, b :: bs =>
    if a.toNat < b.toNat then true
    else if b.toNat < a.toNat then false
    else codeLe as bs

/-- Pop the minimal `(cost, node)` pair under lexicographic order,
breaking cost ties by node name, as Python's `heapq` does on tuples.
Returns the popped pair and the remaining entries. -/
def popMin : List (ℤ × String) → Option ((ℤ × String) × List (ℤ × String))
  | [] => none
  | x :: rest =>
    match popMin rest with
    | none => some (x, [])
    | some (m, rest') =>
      if x.1 < m.1 ∨ (x.1 = m.1 ∧ codeLe x.2.data m.2.data = true) then
        some (x, rest)
      else some (m, x :: rest')

/-- Outcome of the Dijkstra main loop. -/
inductive DOut where
  | found (path : List String) (cost : ℤ)
  | noPath
  | fuelOut
  deriving Repr, DecidableEq

/-- Relaxation of one neighbour `(v, w)` of the freshly finalized node
`u` popped at cost `c` (state: dist, prev, heap). -/
def dijkstraRelax (u : String) (c : ℤ) (visited : List String)
    (st : (String → EW) × (String → Option String) × List (ℤ × String))
    (vw : String × ℤ) :
    (String → EW) × (String → Option String) × List (ℤ × String) :=
  if vw.1 ∈ visited then st
  else if ltE (some (c + vw.2)) (st.1 vw.1) then
    (upd st.1 vw.1 (some (c + vw.2)), upd st.2.1 vw.1 (some u),
      st.2.2 ++ [(c + vw.2, vw.1)])
  else st

/-- The Dijkstra main loop.  A node is finalized (added to `visited`)
only when popped; stale heap entries for visited nodes are skipped.  The
loop is given explicit fuel; `dijkstra_fuel_sufficient` below shows the
chosen fuel is never exhausted, so the `fuelOut` branch is unreachable. -/
def dijkstraLoop (g : Graph) (t : String) :
    Nat → List (ℤ × String) → (String → EW) → (String → Option String) →
      List String → DOut
  | 0, _, _, _, _ => .fuelOut
  | f+1, heap, dist, prev, visited =>
    match popMin heap with
    | none => .noPath
    | some ((c, u), heap') =>
      if u ∈ visited then dijkstraLoop g t f heap' dist prev visited
      else
        let visited' := u :: visited
        if u = t then .found ((chainList g.nodes.length prev t).reverse) c
        else
          let st := (g.neighbors u).foldl (dijkstraRelax u c visited')
            (dist, prev, heap')
          dijkstraLoop g t f st.2.2 st.1 st.2.1 visited'

/-- Loop fuel: strictly more than the maximal possible number of heap
pops (each finalized node pushes at most one entry per edge). -/
def dijkstraFuel (g : Graph) : Nat :=
  g.nodes.length * (g.edges.length + 1) + 2

/-- `DijkstraAlgorithm.compute`: rejects graphs with negative weights
before any path computation, validates the endpoints, then runs the
heap loop from `start`. -/
def dijkstra (g : Graph) (s t : String) : Except Err (List String × ℤ) :=
  if g.hasNegativeWeights then .error .negativeWeight
  else if s ∉ g.nodes then .error (.nodeNotFound s)
  else if t ∉ g.nodes then .error (.nodeNotFound t)
  else
    match dijkstraLoop g t (dijkstraFuel g) [(0, s)]
        (fun v => if v = s then some 0 else none) (fun _ => none) [] with
    | .found p c => .ok (p, c)
    | .noPath => .error .noPath
    | .fuelOut => .error .noPath

/-- Invariant of the Dijkstra loop state (heap, tentative dist map,
visited list), for a run started at `s`: every heap entry is realized
by a walk; an unvisited start keeps a nonpositive entry; every finite
tentative distance of an unvisited node is covered by a heap entry at
most as large; finalized nodes have relaxed all their out-edges; each
finalized node's distance is optimal; heap entries dominate the dist
map; heap entries name graph nodes. -/
def DInv (g : Graph) (s : String) (heap : List (ℤ × String))
    (dist : String → EW) (visited : List String) : Prop :=
  (∀ e ∈ heap, ∃ l, Walks g s e.2 l ∧ walkWt g l = e.1) ∧
  (s ∉ visited → ∃ c0, (c0, s) ∈ heap ∧ c0 ≤ 0) ∧
  (∀ x, x ∉ visited → ∀ dx, dist x = some dx → ∃ c, (c, x) ∈ heap ∧ c ≤ dx) ∧
  (∀ v ∈ visited, ∀ z w, wOf g v z = some w → z ∈ visited ∨
    (∃ dz dv, dist z = some dz ∧ dist v = some dv ∧ dz ≤ dv + w)) ∧
  (∀ v ∈ visited, ∃ dv, dist v = some dv ∧
    ∀ l, Walks g s v l → dv ≤ walkWt g l) ∧
  (∀ e ∈ heap, ∃ dx, dist e.2 = some dx ∧ dx ≤ e.1) ∧
  (∀ e ∈ heap, e.2 ∈ g.nodes)

/-- Every finite tentative distance is realized by an actual walk from
`s`. -/
def Sound (g : Graph) (s : String) (d : String → EW) : Prop :=
  ∀ v c, d v = some c → ∃ l, Walks g s v l ∧ walkWt g l = c

/-- `d'` improves (pointwise lowers) `d`: every finite value stays
finite and does not increase. -/
def Mono (d d' : String → EW) : Prop :=
  ∀ v b, d v = some b → ∃ a, d' v = some a ∧ a ≤ b

/-- The start node's bookkeeping: its distance is finite and at most 0,
and its predecessor is set only if its distance went strictly below 0. -/
def SInv (s : String) (d : String → EW) (p : String → Option String) : Prop :=
  (∃ c, d s = some c ∧ c ≤ 0) ∧
    (p s ≠ none → ∃ c, d s = some c ∧ c < 0)

/-- After enough passes, `d` undercuts every walk of at most `k` edges
(node-list length at most `k + 1`). -/
def BoundK (g : Graph) (s : String) (d : String → EW) (k : Nat) : Prop :=
  ∀ v l, Walks g s v l → l.length ≤ k + 1 →
    ∃ c, d v = some c ∧ c ≤ walkWt g l

/-- The two path algorithms known to `AlgorithmSelector`. -/
inductive AlgChoice where
  | dijkstraAlg
  | bellmanFordAlg
  deriving Repr, DecidableEq

/-- `AlgorithmSelector.select`: a concrete hint is obeyed
unconditionally; `"auto"` picks Bellman-Ford iff some weight is
negative; anything else raises `ValueError`. -/
def selectAlgorithm (g : Graph) (hint : String) : Except Err AlgChoice :=
  if hint = "dijkstra" then .ok .dijkstraAlg
  else if hint = "bellman_ford" then .ok .bellmanFordAlg
  else if hint = "auto" then
    (if g.hasNegativeWeights then .ok .bellmanFordAlg else .ok .dijkstraAlg)
  else .error .badHint

/-- Dispatch `algorithm.compute`. -/
def runAlgorithm : AlgChoice → Graph → String → String →
    Except Err (List String × ℤ)
  | .dijkstraAlg => dijkstra
  | .bellmanFordAlg => bellmanFord

/-- `algorithm.name()`. -/
def algName : AlgChoice → String
  | .dijkstraAlg => "dijkstra"
  | .bellmanFordAlg => "bellman_ford"

/-- Recomputed cost of a claimed path (`None` when a consecutive pair is
not an edge). -/
def pathCost (g : Graph) : List String → Option ℤ
  | [] => some 0
  | [_] => some 0
  | a :: b :: rest =>
    match wOf g a b with
    | none => none
    | some w => (pathCost g (b :: rest)).map (w + ·)

/-- `ResultValidator.validate_path`: at least two nodes, all edges
present, recomputed cost within the `1e-6` tolerance. -/
def validatePath (g : Graph) (p : List String) (expected : ℤ) : Bool :=
  if p.length < 2 then false
  else
    match pathCost g p with
    | none => false
    | some actual => decide (1000000 * |actual - expected| ≤ 1)

/-- A cache entry (`CacheEntry` dataclass). -/
structure CEntry (α : Type) where
  timestamp : ℤ
  ttl : ℤ
  result : α
  deriving Repr, DecidableEq

/-- `IdempotencyCache` state: bounded assoc map plus LRU access order
(least recently used first). -/
structure Cache (α : Type) where
  maxsize : Nat
  defaultTtl : ℤ
  entries : List (String × CEntry α)
  accessOrder : List String
  deriving Repr, DecidableEq

/-- Dictionary lookup. -/
def lookupKey {α : Type} (l : List (String × α)) (k : String) : Option α :=
  (l.find? (fun p => p.1 = k)).map Prod.snd

/-- Dictionary deletion (`del d[k]`). -/
def eraseKey {α : Type} (l : List (String × α)) (k : String) :
    List (String × α) :=
  l.filter (fun p => decide (p.1 ≠ k))

/-- Dictionary assignment (`d[k] = v`): replace in place, else append. -/
def setEntry {α : Type} : List (String × α) → String → α → List (String × α)
  | [], k, v => [(k, v)]
  | p :: rest, k, v => if p.1 = k then (k, v) :: rest else p :: setEntry rest k v

/-- `IdempotencyCache.get` at wall-clock time `now`: an expired entry is
removed and treated as absent; a hit refreshes the LRU position. -/
def cacheGet {α : Type} (c : Cache α) (key : String) (now : ℤ) :
    Option α × Cache α :=
  match lookupKey c.entries key with
  | none => (none, c)
  | some e =>
    if now - e.timestamp > e.ttl then
      (none, { c with entries := eraseKey c.entries key,
                      accessOrder := c.accessOrder.erase key })
    else
      (some e.result, { c with accessOrder := c.accessOrder.erase key ++ [key] })

/-- `IdempotencyCache._evict_lru`: drop the head of the access order. -/
def evictLru {α : Type} (c : Cache α) : Cache α :=
  match c.accessOrder with
  | [] => c
  | k :: rest => { c with entries := eraseKey c.entries k, accessOrder := rest }

/-- `IdempotencyCache.put`: evict the LRU entry when inserting a new key
at capacity, then insert and refresh the LRU position.  `ttl or
self.default_ttl` treats a zero ttl as falsy, as in the source. -/
def cachePut {α : Type} (c : Cache α) (key : String) (v : α)
    (ttl : Option ℤ) (now : ℤ) : Cache α :=
  let c1 := if c.maxsize ≤ c.entries.length ∧ (lookupKey c.entries key).isNone = true
    then evictLru c else c
  let t := match ttl with
    | some x => if x = 0 then c1.defaultTtl else x
    | none => c1.defaultTtl
  { c1 with
    entries := setEntry c1.entries key ⟨now, t, v⟩,
    accessOrder :=
      (if key ∈ c1.accessOrder then c1.accessOrder.erase key
       else c1.accessOrder) ++ [key] }

/-- `IdempotencyCache._make_key` as called by
`RoutingEngine.compute_route`: the parts joined by `|` with the keyword
arguments in sorted key order (`goal_node < graph_id < start_node`).
The final sha256 digest is injective on equal inputs, so the key is
modelled by the joined string itself. -/
def makeKey (requestId graphId startNode goalNode : String) : String :=
  requestId ++ "|goal_node=" ++ goalNode ++ "|graph_id=" ++ graphId ++
    "|start_node=" ++ startNode

/-- `RouteRequest` (the fields that affect the computed response). -/
structure RouteRequest where
  requestId : String
  graphId : String
  startNode : String
  goalNode : String
  algorithmHint : String := "auto"
  validateResult : Bool := true
  deriving Repr, DecidableEq

/-- `RouteResponse` (the fields that the claims are about; the
`cache_hit` metadata entry is the field `cacheHit`). -/
structure RouteResponse where
  requestId : String
  status : String
  path : Option (List String) := none
  cost : Option ℤ := none
  algorithmUsed : Option String := none
  cacheHit : Bool := false
  errorCode : Option String := none
  deriving Repr, DecidableEq

/-- The error code that `compute_route`'s exception handlers attach to
each algorithm error: `NegativeCycleError` is caught first, the
`GraphValidationError` of `validate_nodes_exist` maps to
`INVALID_GRAPH`, and the remaining `ValueError`s map to
`INVALID_INPUT`. -/
def errorCodeOf : Err → String
  | .negCycle _ _ => "NEGATIVE_CYCLE_DETECTED"
  | .nodeNotFound _ => "INVALID_GRAPH"
  | .negativeWeight => "INVALID_INPUT"
  | .noPath => "INVALID_INPUT"
  | .badHint => "INVALID_INPUT"

/-- `RoutingEngine._error_response`. -/
def errResponse (req : RouteRequest) (status code : String) : RouteResponse :=
  { requestId := req.requestId, status := status, errorCode := some code }

/-- `RoutingEngine.compute_route`, for the deterministic slice the
claims are about: the graph loads successfully (so retry, circuit
breaker and the timeout guard do not fire) and `now` is the wall-clock
time of the call.  Flow: idempotency-cache lookup, node validation,
algorithm selection, computation, result validation, caching. -/
def computeRoute (cache : Cache RouteResponse) (g : Graph)
    (req : RouteRequest) (now : ℤ) : RouteResponse × Cache RouteResponse :=
  let key := makeKey req.requestId req.graphId req.startNode req.goalNode
  match cacheGet cache key now with
  | (some r, c') => ({ r with cacheHit := true }, c')
  | (none, c') =>
    if req.startNode ∉ g.nodes then (errResponse req "error" "INVALID_GRAPH", c')
    else if req.goalNode ∉ g.nodes then (errResponse req "error" "INVALID_GRAPH", c')
    else
      match selectAlgorithm g req.algorithmHint with
      | .error e => (errResponse req "error" (errorCodeOf e), c')
      | .ok alg =>
        match runAlgorithm alg g req.startNode req.goalNode with
        | .error e => (errResponse req "error" (errorCodeOf e), c')
        | .ok pc =>
          if req.validateResult ∧ validatePath g pc.1 pc.2 = false then
            (errResponse req "error" "INVALID_RESULT", c')
          else
            let resp : RouteResponse :=
              { requestId := req.requestId, status := "success",
                path := some pc.1, cost := some pc.2,
                algorithmUsed := some (algName alg), cacheHit := false }
            (resp, cachePut c' key resp none now)

/-- Circuit breaker states. -/
inductive CBState where
  | closed
  | opened
  | halfOpen
  deriving Repr, DecidableEq

/-- `CircuitBreaker` mutable state plus configuration. -/
structure CB where
  failureThreshold : Nat
  timeoutDuration : ℤ
  failureCount : Nat
  lastFailureTime : Option ℤ
  state : CBState
  deriving Repr, DecidableEq

/-- Outcome of one `CircuitBreaker.call`: the call was rejected without
dispatching the wrapped work, or the work was dispatched and succeeded
or failed. -/
inductive CBResult where
  | rejected
  | succeeded
  | failed
  deriving Repr, DecidableEq

/-- `CircuitBreaker._should_attempt_reset`. -/
def shouldAttemptReset (cb : CB) (now : ℤ) : Bool :=
  match cb.lastFailureTime with
  | none => false
  | some t0 => decide (now - t0 ≥ cb.timeoutDuration)

/-- `CircuitBreaker._on_success`. -/
def cbOnSuccess (cb : CB) : CB :=
  if cb.state = .halfOpen then { cb with state := .closed, failureCount := 0 }
  else cb

/-- `CircuitBreaker._on_failure`. -/
def cbOnFailure (cb : CB) (now : ℤ) : CB :=
  let fc := cb.failureCount + 1
  if cb.state = .halfOpen then
    { cb with failureCount := fc, lastFailureTime := some now, state := .opened }
  else if cb.failureThreshold ≤ fc then
    { cb with failureCount := fc, lastFailureTime := some now, state := .opened }
  else
    { cb with failureCount := fc, lastFailureTime := some now }

/-- Dispatch the wrapped unit of work (`ok` tells whether it succeeds)
and record the outcome. -/
def cbDispatch (cb : CB) (now : ℤ) (ok : Bool) : CBResult × CB :=
  if ok then (.succeeded, cbOnSuccess cb) else (.failed, cbOnFailure cb now)

/-- `CircuitBreaker.call` at wall-clock time `now`, with the wrapped
unit of work abstracted by its success flag `ok`. -/
def cbCall (cb : CB) (now : ℤ) (ok : Bool) : CBResult × CB :=
  match cb.state with
  | .opened =>
    if shouldAttemptReset cb now then
      cbDispatch { cb with state := .halfOpen } now ok
    else (.rejected, cb)
  | _ => cbDispatch cb now ok

/-- A fresh breaker. -/
def cbNew (threshold : Nat) (timeoutDur : ℤ) : CB :=
  ⟨threshold, timeoutDur, 0, none, .closed⟩

/-- `PlanStatus` of the `oswe-large-rapd-m4s90` variant. -/
inductive PlanStatus where
  | INIT
  | VALIDATED
  | FETCH_GRAPH
  | PLANNING
  | SUCCESS
  | FAILURE
  | COMPENSATED
  deriving Repr, DecidableEq

/-- The `StateMachine` of `oswe-large-rapd-m4s90`: current state plus
audit history. -/
structure RapdStateMachine where
  state : PlanStatus
  history : List (PlanStatus × String)
  deriving Repr, DecidableEq

/-- `StateMachine.__init__`. -/
def rapdNew : RapdStateMachine := ⟨.INIT, []⟩

/-- `StateMachine.transition`: records the old state in the history and
applies the requested new state (no validation whatsoever). -/
def rapdTransition (m : RapdStateMachine) (newState : PlanStatus)
    (reason : String) : RapdStateMachine :=
  ⟨newState, m.history ++ [(m.state, reason)]⟩

/-- `AppointmentState` of the `raptor-secondary` variant. -/
inductive AppointmentState where
  | INIT
  | IN_PROGRESS
  | CONFIRMED
  | FAILED
  | COMPENSATING
  | COMPENSATED
  deriving Repr, DecidableEq

/-- `ALLOWED_TRANSITIONS` of `raptor-secondary`. -/
def allowedTransitions : AppointmentState → List AppointmentState
  | .INIT => [.IN_PROGRESS]
  | .IN_PROGRESS => [.CONFIRMED, .FAILED, .COMPENSATING]
  | .CONFIRMED => [.COMPENSATING]
  | .COMPENSATING => [.COMPENSATED, .FAILED]
  | .FAILED => [.IN_PROGRESS]
  | .COMPENSATED => []

/-- `can_transition`. -/
def canTransition (c t : AppointmentState) : Bool :=
  decide (t ∈ allowedTransitions c)

/-- `transition` of `raptor-secondary`: pure check returning the
accept flag and a reason; the caller applies the new state only on
acceptance. -/
def raptorTransition (c t : AppointmentState) : Bool × String :=
  if canTransition c t then (true, "") else (false, "Invalid transition")

/-- Graph of `routing_v2.py` (the `Claude-haiku-4.5` variant): raw edge
list; the adjacency dict is built in `__post_init__`, skipping edges
whose source or target is a falsy (empty) string.  The resulting
adjacency structure is identical to `Graph`. -/
structure HGraph where
  edges : List (String × String × ℤ)
  deriving Repr, DecidableEq

/-- The adjacency structure built by `HGraph.__post_init__`. -/
def hGraphToGraph (g : HGraph) : Graph :=
  g.edges.foldl
    (fun acc e => if e.1 ≠ "" ∧ e.2.1 ≠ "" then acc.addEdge e.1 e.2.1 e.2.2
     else acc) Graph.empty

/-- `HGraph.nodes()`. -/
def hNodes (g : HGraph) : List String := (hGraphToGraph g).nodes

/-- `routing_v2._has_negative_weights` (iterates the raw edge list). -/
def hHasNegativeWeights (g : HGraph) : Bool :=
  g.edges.any (fun e => decide (e.2.2 < 0))

/-- One relaxation sweep of `routing_v2._has_negative_cycle`. -/
def hNegCyclePass (gg : Graph) (nodes : List String) (d : String → EW) :
    String → EW :=
  nodes.foldl
    (fun d u =>
      match d u with
      | none => d
      | some _ =>
        (gg.neighbors u).foldl
          (fun d' vw =>
            match d' u with
            | none => d'
            | some du =>
              if ltE (some (du + vw.2)) (d' vw.1) then
                upd d' vw.1 (some (du + vw.2))
              else d') d) d

/-- `routing_v2._has_negative_cycle`: Bellman-Ford sweeps from the first
node, then one extra check pass. -/
def hHasNegCycle (g : HGraph) : Bool :=
  let gg := hGraphToGraph g
  match gg.nodes with
  | [] => false
  | n0 :: _ =>
    let d0 : String → EW := fun v => if v = n0 then some 0 else none
    let dfin := (List.range (gg.nodes.length - 1)).foldl
      (fun d _ => hNegCyclePass gg gg.nodes d) d0
    gg.nodes.any (fun u =>
      match dfin u with
      | none => false
      | some du =>
        (gg.neighbors u).any (fun vw => ltE (some (du + vw.2)) (dfin vw.1)))

/-- The BFS loop of `routing_v2._is_reachable` (fuel-bounded; the fuel
bound is generous and only the empty-graph claim touches this code,
where it is not reached). -/
def hBfs (gg : Graph) (goal : String) :
    Nat → List String → List String → Bool
  | 0, _, _ => false
  | f+1, queue, visited =>
    match queue with
    | [] => false
    | node :: rest =>
      if node = goal then true
      else if node ∈ visited then hBfs gg goal f rest visited
      else
        let visited2 := node :: visited
        hBfs gg goal f
          (rest ++ ((gg.neighbors node).map Prod.fst).filter
            (fun nb => decide (nb ∉ visited2))) visited2

/-- `routing_v2._is_reachable`. -/
def hIsReachable (g : HGraph) (start goal : String) : Bool :=
  if start = goal then true
  else
    let gg := hGraphToGraph g
    hBfs gg goal (gg.nodes.length * (gg.edges.length + 1) + 2) [start] []

/-- `routing_v2._validate_graph`: empty graph short-circuits with
`EMPTY_GRAPH`; missing endpoints short-circuit with `NODE_NOT_FOUND`;
then negative-cycle and reachability checks. -/
def hValidateGraph (g : HGraph) (start goal : String) : Bool × List String :=
  let nodes := hNodes g
  if nodes.isEmpty then (false, ["EMPTY_GRAPH"])
  else
    let errs := (if start ∉ nodes then ["NODE_NOT_FOUND"] else []) ++
      (if goal ∉ nodes then ["NODE_NOT_FOUND"] else [])
    if errs ≠ [] then (false, errs)
    else
      let errs2 :=
        (if hHasNegativeWeights g then
          (if hHasNegCycle g then ["NEG_CYCLE"] else []) else []) ++
        (if hIsReachable g start goal then [] else ["NO_PATH_FOUND"])
      (errs2.isEmpty, errs2)

/-- The fields of `routing_v2.RoutingResult` the empty-graph claim is
about. -/
structure HResult where
  path : Option (List String)
  cost : Option ℤ
  status : String
  errorCode : Option String
  deriving Repr, DecidableEq

/-- The validation-failure branch of
`RoutingService.compute_shortest_path` (cache miss): `status="error"`,
`error_code=errors[0]`, no path, no cost. -/
def hInvalidResult (errs : List String) : HResult :=
  ⟨none, none, "error", errs.head?⟩

/-- `compute_shortest_path` on a cache miss, restricted to the
validation-failure branch the empty-graph claim exercises. -/
def hComputeInvalid (g : HGraph) (start goal : String) : HResult :=
  hInvalidResult (hValidateGraph g start goal).2

/-- The empty haiku graph. -/
def hEmptyGraph : HGraph := ⟨[]⟩

deriving instance DecidableEq for Except

/-- The specification's example graph
`A→B:5, A→C:2, C→D:1, D→F:-3, F→B:1, A→E:1, E→B:6`. -/
def exampleGraphC4 : Graph := Graph.fromEdgeList
  [("A", "B", 5), ("A", "C", 2), ("C", "D", 1), ("D", "F", -3),
    ("F", "B", 1), ("A", "E", 1), ("E", "B", 6)]

/-- A single negative edge. -/
def negEdgeGraph : Graph := Graph.fromEdgeList [("A", "B", -1)]

/-- A two-node negative cycle `A→B:-5, B→A:2` (total weight `-3`). -/
def twoCycleGraph : Graph := Graph.fromEdgeList [("A", "B", -5), ("B", "A", 2)]

/-- A diamond with two equal-cost shortest paths, inserted in the order
`A→C, A→B, C→D, B→D`. -/
def diamondGraph : Graph := Graph.fromEdgeList
  [("A", "C", 1), ("A", "B", 1), ("C", "D", 1), ("B", "D", 1)]

/-- The engine's cache as constructed in `RoutingEngine.__init__`
(`maxsize=1000, default_ttl=300.0`), still empty. -/
def freshCache : Cache RouteResponse := ⟨1000, 300, [], []⟩

/-- Invariant of reachable `IdempotencyCache` states: the access order
lists each cached key exactly once. -/
def CacheInv {α : Type} (c : Cache α) : Prop :=
  c.accessOrder.Nodup ∧ c.accessOrder.Perm (c.entries.map Prod.fst)

lemma keyFound_iff {α : Type} (l : List (String × α)) (s : String) :
    (l.find? (fun p => p.1 = s)).isSome = true ↔ s ∈ l.map Prod.fst := by
  simp [List.find?_isSome]

lemma mem_addInner {ns : List (String × ℤ)} {t : String} {w : ℤ} {q : String × ℤ} :
    q ∈ addInner ns t w → q ∈ ns ∨ q = (t, w) := by
  induction ns with
  | nil => intro h; simp [addInner] at h; exact Or.inr h
  | cons p rest ih =>
    intro h
    by_cases hp : p.1 = t
    · simp only [addInner, hp, if_true, List.mem_cons] at h
      rcases h with h | h
      · exact Or.inr h
      · exact Or.inl (List.mem_cons_of_mem _ h)
    · simp only [addInner, hp, if_false, List.mem_cons] at h
      rcases h with rfl | h
      · exact Or.inl (List.mem_cons_self _ _)
      · rcases ih h with h' | h'
        · exact Or.inl (List.mem_cons_of_mem _ h')
        · exact Or.inr h'

lemma addInner_keys (ns : List (String × ℤ)) (t : String) (w : ℤ) :
    (addInner ns t w).map Prod.fst = ns.map Prod.fst ∨
      ((addInner ns t w).map Prod.fst = ns.map Prod.fst ++ [t] ∧
        t ∉ ns.map Prod.fst) := by
  induction ns with
  | nil => right; simp [addInner]
  | cons p rest ih =>
    by_cases hp : p.1 = t
    · left; simp [addInner, hp]
    · rcases ih with h | ⟨h, ht⟩
      · left; simp [addInner, hp, h]
      · right
        constructor
        · simp [addInner, hp, h]
        · simp only [List.map_cons, List.mem_cons]
          rintro (rfl | hc)
          · exact hp rfl
          · exact ht hc

lemma addInner_keys_nodup {ns : List (String × ℤ)} {t : String} {w : ℤ}
    (h : (ns.map Prod.fst).Nodup) : ((addInner ns t w).map Prod.fst).Nodup := by
  rcases addInner_keys ns t w with hk | ⟨hk, ht⟩
  · rw [hk]; exact h
  · rw [hk]
    exact List.Nodup.append h (List.nodup_singleton t)
      (by simpa [List.disjoint_singleton] using ht)

lemma keys_setKey (l : List (String × List (String × ℤ))) (s t : String) (w : ℤ) :
    (setKey l s t w).map Prod.fst = l.map Prod.fst := by
  unfold setKey
  rw [List.map_map]
  apply List.map_congr_left
  intro p _
  by_cases hp : p.1 = s <;> simp [hp]

lemma mem_setKey {l : List (String × List (String × ℤ))} {s t : String} {w : ℤ}
    {p : String × List (String × ℤ)} (h : p ∈ setKey l s t w) :
    ∃ q ∈ l, p = if q.1 = s then (q.1, addInner q.2 t w) else q := by
  unfold setKey at h
  rcases List.mem_map.mp h with ⟨q, hq, hpq⟩
  exact ⟨q, hq, hpq.symm⟩

lemma keys_ensureNode (l : List (String × List (String × ℤ))) (t : String) :
    (ensureNode l t).map Prod.fst = l.map Prod.fst ∨
      ((ensureNode l t).map Prod.fst = l.map Prod.fst ++ [t] ∧
        t ∉ l.map Prod.fst) := by
  unfold ensureNode
  by_cases h : (l.find? (fun p => p.1 = t)).isSome = true
  · left; simp [h]
  · right
    constructor
    · simp [h]
    · intro hc
      exact h ((keyFound_iff l t).mpr hc)

lemma mem_ensureNode {l : List (String × List (String × ℤ))} {t : String}
    {p : String × List (String × ℤ)} (h : p ∈ ensureNode l t) :
    p ∈ l ∨ p = (t, []) := by
  unfold ensureNode at h
  split at h
  · exact Or.inl h
  · rcases List.mem_append.mp h with h' | h'
    · exact Or.inl h'
    · exact Or.inr (List.mem_singleton.mp h')

lemma target_mem_ensureNode (l : List (String × List (String × ℤ))) (t : String) :
    t ∈ (ensureNode l t).map Prod.fst := by
  unfold ensureNode
  by_cases h : (l.find? (fun p => p.1 = t)).isSome = true
  · simp only [h, if_true]
    exact (keyFound_iff l t).mp h
  · simp [h]

lemma sub_ensureNode {l : List (String × List (String × ℤ))} {t a : String}
    (h : a ∈ l.map Prod.fst) : a ∈ (ensureNode l t).map Prod.fst := by
  rcases keys_ensureNode l t with hk | ⟨hk, _⟩
  · rw [hk]; exact h
  · rw [hk]; exact List.mem_append_left _ h

lemma nodes_addEdge (g : Graph) (s t : String) (w : ℤ) {a : String} :
    a ∈ g.nodes → a ∈ (g.addEdge s t w).nodes := by
  intro ha
  unfold Graph.addEdge Graph.nodes
  apply sub_ensureNode
  split
  · rw [keys_setKey]; exact ha
  · rw [List.map_append]; exact List.mem_append_left _ ha

lemma target_mem_addEdge (g : Graph) (s t : String) (w : ℤ) :
    t ∈ (g.addEdge s t w).nodes :=
  target_mem_ensureNode _ t

lemma source_mem_addEdge (g : Graph) (s t : String) (w : ℤ) :
    s ∈ (g.addEdge s t w).nodes := by
  unfold Graph.addEdge Graph.nodes
  apply sub_ensureNode
  by_cases h : (g.adj.find? (fun p => p.1 = s)).isSome = true
  · simp only [h, if_true, keys_setKey]
    exact (keyFound_iff g.adj s).mp h
  · simp [h]

lemma wf_addEdge {g : Graph} (hg : Wf g) (s t : String) (w : ℤ) :
    Wf (g.addEdge s t w) := by
  obtain ⟨hnd, hinner, hclosed⟩ := hg
  have hstep : ∀ p ∈ (if (g.adj.find? (fun p => p.1 = s)).isSome
      then setKey g.adj s t w else g.adj ++ [(s, [(t, w)])]),
      ((p.2.map Prod.fst).Nodup ∧
        ∀ q ∈ p.2, q.1 ∈ g.nodes ∨ q.1 = t) := by
    intro p hp
    split at hp
    · rcases mem_setKey hp with ⟨q, hq, hpq⟩
      by_cases hqs : q.1 = s
      · simp only [hqs, if_true] at hpq
        subst hpq
        refine ⟨addInner_keys_nodup (hinner q hq), ?_⟩
        intro r hr
        rcases mem_addInner hr with h' | rfl
        · exact Or.inl (hclosed q hq r h')
        · exact Or.inr rfl
      · simp only [hqs, if_false] at hpq
        subst hpq
        exact ⟨hinner _ hq, fun r hr => Or.inl (hclosed _ hq r hr)⟩
    · rcases List.mem_append.mp hp with hp' | hp'
      · exact ⟨hinner p hp', fun r hr => Or.inl (hclosed p hp' r hr)⟩
      · rcases List.mem_singleton.mp hp' with rfl
        refine ⟨by simp, ?_⟩
        intro r hr
        rcases List.mem_singleton.mp hr with rfl
        exact Or.inr rfl
  have hstepnd : ((if (g.adj.find? (fun p => p.1 = s)).isSome
      then setKey g.adj s t w else g.adj ++ [(s, [(t, w)])]).map Prod.fst).Nodup := by
    split
    · rw [keys_setKey]; exact hnd
    · next h =>
      rw [List.map_append]
      refine List.Nodup.append hnd (by simp) ?_
      simp only [List.map_cons, List.map_nil, List.disjoint_singleton]
      intro hc
      exact h ((keyFound_iff g.adj s).mpr hc)
  refine ⟨?_, ?_, ?_⟩
  · show ((ensureNode _ t).map Prod.fst).Nodup
    rcases keys_ensureNode (if (g.adj.find? (fun p => p.1 = s)).isSome
      then setKey g.adj s t w else g.adj ++ [(s, [(t, w)])]) t with hk | ⟨hk, ht⟩
    · rw [hk]; exact hstepnd
    · rw [hk]
      exact List.Nodup.append hstepnd (by simp)
        (by simpa [List.disjoint_singleton] using ht)
  · intro p hp
    rcases mem_ensureNode hp with hp' | rfl
    · exact (hstep p hp').1
    · simp
  · intro p hp q hq
    rcases mem_ensureNode hp with hp' | rfl
    · rcases (hstep p hp').2 q hq with h' | h'
      · exact nodes_addEdge g s t w h'
      · rw [h']; exact target_mem_addEdge g s t w
    · simp at hq

lemma wf_empty : Wf Graph.empty := by
  refine ⟨by simp [Graph.nodes, Graph.empty], ?_, ?_⟩ <;>
    simp [Graph.empty]

lemma wf_fromEdgeList (es : List Edge) : Wf (Graph.fromEdgeList es) := by
  unfold Graph.fromEdgeList
  suffices h : ∀ g : Graph, Wf g → Wf (es.foldl (fun g e => g.addEdge e.1 e.2.1 e.2.2) g) by
    exact h Graph.empty wf_empty
  induction es with
  | nil => intro g hg; exact hg
  | cons e rest ih =>
    intro g hg
    exact ih _ (wf_addEdge hg e.1 e.2.1 e.2.2)

lemma keys_nodup_inj {α : Type} {l : List (String × α)}
    (h : (l.map Prod.fst).Nodup) {p q : String × α}
    (hp : p ∈ l) (hq : q ∈ l) (hk : p.1 = q.1) : p = q := by
  induction l with
  | nil => simp at hp
  | cons x rest ih =>
    simp only [List.map_cons, List.nodup_cons] at h
    rcases List.mem_cons.mp hp with rfl | hp' <;>
      rcases List.mem_cons.mp hq with rfl | hq'
    · rfl
    · exact absurd (hk ▸ List.mem_map_of_mem Prod.fst hq') h.1
    · exact absurd (hk ▸ List.mem_map_of_mem Prod.fst hp') h.1
    · exact ih h.2 hp' hq'

lemma find?_key_of_mem {α : Type} {l : List (String × α)}
    (h : (l.map Prod.fst).Nodup) {q : String × α} (hq : q ∈ l) :
    l.find? (fun p => p.1 = q.1) = some q := by
  induction l with
  | nil => simp at hq
  | cons x rest ih =>
    simp only [List.map_cons, List.nodup_cons] at h
    rcases List.mem_cons.mp hq with rfl | hq'
    · simp [List.find?_cons]
    · rw [List.find?_cons]
      split
      · next heq =>
        have hx : x.1 = q.1 := by simpa using heq
        exact absurd (hx ▸ List.mem_map_of_mem Prod.fst hq') h.1
      · exact ih h.2 hq'

lemma mem_edges_iff {g : Graph} {a b : String} {w : ℤ} :
    (a, b, w) ∈ g.edges ↔ ∃ ns, (a, ns) ∈ g.adj ∧ (b, w) ∈ ns := by
  simp only [Graph.edges, List.mem_flatten, List.mem_map]
  constructor
  · rintro ⟨L, ⟨p, hp, rfl⟩, hm⟩
    rcases List.mem_map.mp hm with ⟨q, hq, hqe⟩
    obtain ⟨rfl, rfl, rfl⟩ : p.1 = a ∧ q.1 = b ∧ q.2 = w := by
      refine ⟨congrArg (fun e => e.1) hqe, congrArg (fun e => e.2.1) hqe,
        congrArg (fun e => e.2.2) hqe⟩
    exact ⟨p.2, hp, hq⟩
  · rintro ⟨ns, hns, hbw⟩
    exact ⟨ns.map (fun q => (a, q.1, q.2)), ⟨(a, ns), hns, rfl⟩,
      List.mem_map.mpr ⟨(b, w), hbw, rfl⟩⟩

lemma neighbors_eq_of_mem {g : Graph} (hg : Wf g) {a : String}
    {ns : List (String × ℤ)} (h : (a, ns) ∈ g.adj) : g.neighbors a = ns := by
  unfold Graph.neighbors
  have := find?_key_of_mem hg.1 h
  simp only at this
  rw [this]
  rfl

lemma mem_neighbors_edges {g : Graph} {a b : String} {w : ℤ}
    (h : (b, w) ∈ g.neighbors a) : (a, b, w) ∈ g.edges := by
  unfold Graph.neighbors at h
  cases hf : g.adj.find? (fun p => p.1 = a) with
  | none => rw [hf] at h; simp at h
  | some p =>
    rw [hf] at h
    simp only [Option.map_some', Option.getD_some] at h
    have hp : p ∈ g.adj := List.mem_of_find?_eq_some hf
    have hpa : p.1 = a := by simpa using List.find?_some hf
    exact mem_edges_iff.mpr ⟨p.2, by rw [← hpa]; exact hp, h⟩

lemma mem_neighbors_iff {g : Graph} (hg : Wf g) {a b : String} {w : ℤ} :
    (b, w) ∈ g.neighbors a ↔ (a, b, w) ∈ g.edges := by
  constructor
  · exact mem_neighbors_edges
  · intro h
    rcases mem_edges_iff.mp h with ⟨ns, hns, hbw⟩
    rw [neighbors_eq_of_mem hg hns]
    exact hbw

lemma neighbors_keys_nodup {g : Graph} (hg : Wf g) (a : String) :
    ((g.neighbors a).map Prod.fst).Nodup := by
  unfold Graph.neighbors
  cases hf : g.adj.find? (fun p => p.1 = a) with
  | none => simp
  | some p =>
    simp only [Option.map_some', Option.getD_some]
    exact hg.2.1 p (List.mem_of_find?_eq_some hf)

lemma wOf_eq_some_iff {g : Graph} (hg : Wf g) {a b : String} {w : ℤ} :
    wOf g a b = some w ↔ (a, b, w) ∈ g.edges := by
  unfold wOf
  constructor
  · intro h
    cases hf : (g.neighbors a).find? (fun q => q.1 = b) with
    | none => rw [hf] at h; simp at h
    | some q =>
      rw [hf] at h
      simp only [Option.map_some', Option.some_inj] at h
      have hq : q ∈ g.neighbors a := List.mem_of_find?_eq_some hf
      have hqb : q.1 = b := by simpa using List.find?_some hf
      have : q = (b, w) := by
        cases q; simp only at hqb h; simp [hqb, h]
      rw [this] at hq
      exact mem_neighbors_edges hq
  · intro h
    have hbw : (b, w) ∈ g.neighbors a := (mem_neighbors_iff hg).mpr h
    have := find?_key_of_mem (neighbors_keys_nodup hg a) hbw
    simp only at this
    rw [this]
    rfl

lemma wOf_isSome_of_mem {g : Graph} {a b : String} {w : ℤ}
    (h : (b, w) ∈ g.neighbors a) : (wOf g a b).isSome = true := by
  unfold wOf
  have : ((g.neighbors a).find? (fun q => q.1 = b)).isSome = true :=
    (keyFound_iff _ b).mpr (List.mem_map_of_mem Prod.fst h)
  cases hf : (g.neighbors a).find? (fun q => q.1 = b) with
  | none => rw [hf] at this; simp at this
  | some q => simp

lemma edge_src_mem {g : Graph} {a b : String} {w : ℤ}
    (h : (a, b, w) ∈ g.edges) : a ∈ g.nodes := by
  rcases mem_edges_iff.mp h with ⟨ns, hns, _⟩
  exact List.mem_map_of_mem Prod.fst hns

lemma edge_tgt_mem {g : Graph} (hg : Wf g) {a b : String} {w : ℤ}
    (h : (a, b, w) ∈ g.edges) : b ∈ g.nodes := by
  rcases mem_edges_iff.mp h with ⟨ns, hns, hbw⟩
  exact hg.2.2 (a, ns) hns (b, w) hbw

lemma neighbors_length_le (g : Graph) (a : String) :
    (g.neighbors a).length ≤ g.edges.length := by
  unfold Graph.neighbors
  cases hf : g.adj.find? (fun p => p.1 = a) with
  | none => simp
  | some p =>
    simp only [Option.map_some', Option.getD_some]
    have hp : p ∈ g.adj := List.mem_of_find?_eq_some hf
    have hmem : p.2.map (fun q => (p.1, q.1, q.2)) ∈
        g.adj.map (fun p => p.2.map (fun q => (p.1, q.1, q.2))) :=
      List.mem_map_of_mem _ hp
    have hlen : (p.2.map (fun q => (p.1, q.1, q.2))).length ≤ g.edges.length := by
      unfold Graph.edges
      rw [List.length_flatten]
      exact List.single_le_sum (by simp) _ (List.mem_map_of_mem List.length hmem)
    simpa using hlen

lemma hasNeg_false_iff {g : Graph} :
    g.hasNegativeWeights = false ↔ ∀ e ∈ g.edges, 0 ≤ e.2.2 := by
  unfold Graph.hasNegativeWeights
  rw [List.any_eq_false]
  constructor
  · intro h e he
    have := h e he
    simpa [not_lt] using this
  · intro h e he
    simpa [not_lt] using h e he

lemma walks_single (g : Graph) (s : String) : Walks g s s [s] :=
  ⟨rfl, rfl, rfl⟩

lemma chain_ne_nil {g : Graph} {l : List String} (h : isChain g l = true) :
    l ≠ [] := by
  intro hl; rw [hl] at h; simp [isChain] at h

lemma chain_cons_of_head {g : Graph} {l : List String} {u v : String}
    (hv : l.head? = some v) (he : (wOf g u v).isSome = true)
    (hc : isChain g l = true) : isChain g (u :: l) = true := by
  cases l with
  | nil => simp at hv
  | cons x rest =>
    simp only [List.head?_cons, Option.some_inj] at hv
    subst hv
    simp [isChain, he, hc]

lemma wt_cons_of_head {g : Graph} {l : List String} {u v : String}
    (hv : l.head? = some v) :
    walkWt g (u :: l) = (wOf g u v).getD 0 + walkWt g l := by
  cases l with
  | nil => simp at hv
  | cons x rest =>
    simp only [List.head?_cons, Option.some_inj] at hv
    subst hv
    rfl

lemma chain_snoc {g : Graph} {l : List String} {a b : String}
    (hc : isChain g l = true) (ha : l.getLast? = some a)
    (he : (wOf g a b).isSome = true) : isChain g (l ++ [b]) = true := by
  induction l with
  | nil => simp [isChain] at hc
  | cons x rest ih =>
    cases rest with
    | nil =>
      have hxa : x = a := by simpa using ha
      subst hxa
      simp [isChain, he]
    | cons y r =>
      simp only [isChain, Bool.and_eq_true] at hc
      have ha' : (y :: r).getLast? = some a := by
        rw [List.getLast?_cons_cons] at ha; exact ha
      have := ih hc.2 ha'
      simp only [List.cons_append, isChain, Bool.and_eq_true]
      exact ⟨hc.1, by simpa using this⟩

lemma wt_snoc {g : Graph} {l : List String} {a b : String} {w : ℤ}
    (hc : isChain g l = true) (ha : l.getLast? = some a)
    (he : wOf g a b = some w) : walkWt g (l ++ [b]) = walkWt g l + w := by
  induction l with
  | nil => simp [isChain] at hc
  | cons x rest ih =>
    cases rest with
    | nil =>
      have hxa : x = a := by simpa using ha
      subst hxa
      simp [walkWt, he]
    | cons y r =>
      simp only [isChain, Bool.and_eq_true] at hc
      have ha' : (y :: r).getLast? = some a := by
        rw [List.getLast?_cons_cons] at ha; exact ha
      have hh : ((y :: r) ++ [b]).head? = some y := by simp
      calc walkWt g ((x :: y :: r) ++ [b])
          = (wOf g x y).getD 0 + walkWt g ((y :: r) ++ [b]) := by
            rw [List.cons_append]; exact wt_cons_of_head hh
        _ = (wOf g x y).getD 0 + (walkWt g (y :: r) + w) := by rw [ih hc.2 ha']
        _ = walkWt g (x :: y :: r) + w := by simp [walkWt]; ring

lemma walks_snoc {g : Graph} {l : List String} {s a b : String} {w : ℤ}
    (hw : Walks g s a l) (he : wOf g a b = some w) :
    Walks g s b (l ++ [b]) ∧ walkWt g (l ++ [b]) = walkWt g l + w := by
  obtain ⟨hc, hh, hl⟩ := hw
  refine ⟨⟨chain_snoc hc hl (by simp [he]), ?_, ?_⟩, wt_snoc hc hl he⟩
  · cases l with
    | nil => simp at hh
    | cons x rest => simpa using hh
  · simp

lemma walks_init {g : Graph} {l : List String} {s x : String}
    (hw : Walks g s x l) (hlen : 2 ≤ l.length) :
    ∃ l' a w, l = l' ++ [x] ∧ Walks g s a l' ∧ wOf g a x = some w ∧
      walkWt g l = walkWt g l' + w := by
  induction l generalizing s with
  | nil => simp at hlen
  | cons u rest ih =>
    obtain ⟨hc, hh, hl⟩ := hw
    simp only [List.head?_cons, Option.some_inj] at hh
    subst hh
    cases rest with
    | nil => simp at hlen
    | cons v r =>
      simp only [isChain, Bool.and_eq_true] at hc
      obtain ⟨w0, hw0⟩ := Option.isSome_iff_exists.mp hc.1
      cases r with
      | nil =>
        have hvx : v = x := by simpa using hl
        subst hvx
        refine ⟨[u], u, w0, by simp, walks_single g u, hw0, ?_⟩
        simp [walkWt, hw0]
      | cons z r' =>
        have hw' : Walks g v x (v :: z :: r') := by
          refine ⟨hc.2, rfl, ?_⟩
          rw [List.getLast?_cons_cons] at hl
          exact hl
        obtain ⟨l2, a, w, heq, hwalk2, hwe, hwt2⟩ := ih hw' (by simp)
        have hl2h : l2.head? = some v := by
          have := hwalk2.2.1
          exact this
        have hl2ne : l2 ≠ [] := chain_ne_nil hwalk2.1
        refine ⟨u :: l2, a, w, ?_, ?_, hwe, ?_⟩
        · rw [List.cons_append, ← heq]
        · refine ⟨chain_cons_of_head hl2h (by simp [hw0]) hwalk2.1, rfl, ?_⟩
          cases l2 with
          | nil => exact absurd rfl hl2ne
          | cons p q => rw [List.getLast?_cons_cons]; exact hwalk2.2.2
        · have : walkWt g (u :: v :: z :: r') = w0 + walkWt g (v :: z :: r') := by
            simp [walkWt, hw0]
          rw [this, hwt2, wt_cons_of_head hl2h, hw0]
          simp only [Option.getD_some]
          ring

lemma walkWt_nonneg {g : Graph} (hg : Wf g)
    (hnn : ∀ e ∈ g.edges, 0 ≤ e.2.2) {l : List String}
    (hc : isChain g l = true) : 0 ≤ walkWt g l := by
  induction l with
  | nil => simp [walkWt]
  | cons u rest ih =>
    cases rest with
    | nil => simp [walkWt]
    | cons v r =>
      simp only [isChain, Bool.and_eq_true] at hc
      obtain ⟨w0, hw0⟩ := Option.isSome_iff_exists.mp hc.1
      have hmem : (u, v, w0) ∈ g.edges := (wOf_eq_some_iff hg).mp hw0
      have h0 : 0 ≤ w0 := hnn _ hmem
      have := ih hc.2
      simp only [walkWt, hw0, Option.getD_some]
      linarith

lemma chain_mem_nodes {g : Graph} (hg : Wf g) {l : List String}
    (hc : isChain g l = true) (hlen : 2 ≤ l.length) :
    ∀ x ∈ l, x ∈ g.nodes := by
  induction l with
  | nil => simp at hlen
  | cons u rest ih =>
    cases rest with
    | nil => simp at hlen
    | cons v r =>
      simp only [isChain, Bool.and_eq_true] at hc
      obtain ⟨w0, hw0⟩ := Option.isSome_iff_exists.mp hc.1
      have hmem : (u, v, w0) ∈ g.edges := (wOf_eq_some_iff hg).mp hw0
      intro x hx
      rcases List.mem_cons.mp hx with rfl | hx'
      · exact edge_src_mem hmem
      · cases r with
        | nil =>
          rcases List.mem_singleton.mp hx' with rfl
          exact edge_tgt_mem hg hmem
        | cons z r' =>
          exact ih hc.2 (by simp) x hx'

lemma stable_step {g : Graph} {d : String → EW} (hs : stableD g d)
    {a b : String} {w : ℤ} (he : (a, b, w) ∈ g.edges)
    {da : ℤ} (hda : d a = some da) :
    ∃ db, d b = some db ∧ db ≤ da + w := by
  have := hs _ he
  simp only at this
  rw [hda] at this
  cases hdb : d b with
  | none => rw [hdb] at this; simp [ltE, addE] at this
  | some db =>
    rw [hdb] at this
    simp only [addE, Option.map_some', ltE, decide_eq_false_iff_not, not_lt] at this
    exact ⟨db, rfl, this⟩

lemma stable_walk {g : Graph} (hg : Wf g) {d : String → EW}
    (hs : stableD g d) {l : List String} (hc : isChain g l = true) :
    ∀ a b da, l.head? = some a → l.getLast? = some b → d a = some da →
      ∃ db, d b = some db ∧ db ≤ da + walkWt g l := by
  induction l with
  | nil => simp [isChain] at hc
  | cons u rest ih =>
    intro a b da hh hl hda
    simp only [List.head?_cons, Option.some_inj] at hh
    subst hh
    cases rest with
    | nil =>
      have hub : u = b := by simpa using hl
      subst hub
      exact ⟨da, hda, by simp [walkWt]⟩
    | cons v r =>
      simp only [isChain, Bool.and_eq_true] at hc
      obtain ⟨w0, hw0⟩ := Option.isSome_iff_exists.mp hc.1
      have hmem : (u, v, w0) ∈ g.edges := (wOf_eq_some_iff hg).mp hw0
      obtain ⟨dv, hdv, hle⟩ := stable_step hs hmem hda
      have hl' : (v :: r).getLast? = some b := by
        rw [List.getLast?_cons_cons] at hl; exact hl
      obtain ⟨db, hdb, hle2⟩ := ih hc.2 v b dv rfl hl' hdv
      refine ⟨db, hdb, ?_⟩
      simp only [walkWt, hw0, Option.getD_some]
      linarith

lemma lookup_eraseKey_self {α : Type} (l : List (String × α)) (k : String) :
    lookupKey (eraseKey l k) k = none := by
  unfold lookupKey eraseKey
  induction l with
  | nil => rfl
  | cons p rest ih =>
    by_cases hp : p.1 = k
    · simpa [hp] using ih
    · simpa [List.find?_cons, hp] using ih

lemma lookup_eraseKey_ne {α : Type} (l : List (String × α)) {k k' : String}
    (h : k' ≠ k) : lookupKey (eraseKey l k) k' = lookupKey l k' := by
  have hkk : (k = k') = False := eq_false fun hc => h hc.symm
  unfold lookupKey eraseKey
  induction l with
  | nil => rfl
  | cons p rest ih =>
    by_cases hp : p.1 = k
    · simpa [hp, List.find?_cons, hkk] using ih
    · by_cases hq : p.1 = k'
      · simp [List.find?_cons, hp, hq, h]
      · simpa [List.find?_cons, hp, hq] using ih

lemma lookup_setEntry_self {α : Type} (l : List (String × α)) (k : String) (v : α) :
    lookupKey (setEntry l k v) k = some v := by
  unfold lookupKey
  induction l with
  | nil => simp [setEntry]
  | cons p rest ih =>
    by_cases hp : p.1 = k
    · simp [setEntry, hp, List.find?_cons]
    · simpa [setEntry, hp, List.find?_cons] using ih

lemma lookup_setEntry_ne {α : Type} (l : List (String × α)) {k k' : String}
    (v : α) (h : k' ≠ k) :
    lookupKey (setEntry l k v) k' = lookupKey l k' := by
  have hkk : (k = k') = False := eq_false fun hc => h hc.symm
  unfold lookupKey
  induction l with
  | nil => simp [setEntry, List.find?_cons, hkk]
  | cons p rest ih =>
    by_cases hp : p.1 = k
    · simp [setEntry, hp, List.find?_cons, hkk]
    · by_cases hq : p.1 = k'
      · simp [setEntry, hp, List.find?_cons, hq, h]
      · simpa [setEntry, hp, List.find?_cons, hq] using ih

lemma lookup_none_iff {α : Type} (l : List (String × α)) (k : String) :
    lookupKey l k = none ↔ k ∉ l.map Prod.fst := by
  unfold lookupKey
  rw [Option.map_eq_none', List.find?_eq_none]
  constructor
  · intro h hc
    rcases List.mem_map.mp hc with ⟨p, hp, hpk⟩
    exact absurd (by simpa using hpk) (by simpa using h p hp)
  · intro h p hp
    intro hc
    exact h (List.mem_map.mpr ⟨p, hp, by simpa using hc⟩)

lemma lookup_isSome_iff {α : Type} (l : List (String × α)) (k : String) :
    (lookupKey l k).isSome = true ↔ k ∈ l.map Prod.fst := by
  constructor
  · intro h
    by_contra hc
    rw [← lookup_none_iff] at hc
    rw [hc] at h
    simp at h
  · intro h
    cases hl : lookupKey l k with
    | none => exact absurd ((lookup_none_iff l k).mp hl) (by simpa using h)
    | some v => simp

lemma mono_refl (d : String → EW) : Mono d d := fun _ b h => ⟨b, h, le_refl b⟩

lemma mono_trans {d1 d2 d3 : String → EW} (h1 : Mono d1 d2) (h2 : Mono d2 d3) :
    Mono d1 d3 := by
  intro v b hv
  obtain ⟨a, ha, hab⟩ := h1 v b hv
  obtain ⟨a', ha', hab'⟩ := h2 v a ha
  exact ⟨a', ha', le_trans hab' hab⟩

lemma ltE_addE_true {d : EW} {w : ℤ} {y : EW}
    (h : ltE (addE d w) y = true) : ∃ a, d = some a := by
  cases d with
  | none => simp [addE, ltE] at h
  | some a => exact ⟨a, rfl⟩

lemma ltE_some_some {a b : ℤ} (h : ltE (some a) (some b) = true) : a < b := by
  simpa [ltE] using h

lemma ltE_false_le {a : ℤ} {y : EW} (h : ltE (some a) y = false) :
    ∃ b, y = some b ∧ b ≤ a := by
  cases y with
  | none => simp [ltE] at h
  | some b => exact ⟨b, rfl, by simpa [ltE, not_lt] using h⟩

lemma bfRelax_eq (st : (String → EW) × (String → Option String) × Bool)
    (e : Edge) :
    (bfRelax st e = st ∧
      ltE (addE (st.1 e.1) e.2.2) (st.1 e.2.1) = false) ∨
    (∃ da, st.1 e.1 = some da ∧
      ltE (some (da + e.2.2)) (st.1 e.2.1) = true ∧
      bfRelax st e = (upd st.1 e.2.1 (some (da + e.2.2)),
        upd st.2.1 e.2.1 (some e.1), true)) := by
  unfold bfRelax
  cases hc : ltE (addE (st.1 e.1) e.2.2) (st.1 e.2.1) with
  | false => left; simp [hc]
  | true =>
    right
    obtain ⟨da, hda⟩ := ltE_addE_true hc
    rw [hda] at hc
    refine ⟨da, hda, hc, ?_⟩
    rw [hda]
    simp [addE]

lemma bfRelax_mono (st : (String → EW) × (String → Option String) × Bool)
    (e : Edge) : Mono st.1 (bfRelax st e).1 := by
  rcases bfRelax_eq st e with ⟨h, _⟩ | ⟨da, hda, hlt, h⟩
  · rw [h]; exact mono_refl _
  · rw [h]
    intro v b hv
    by_cases hveq : v = e.2.1
    · subst hveq
      rw [hv] at hlt
      exact ⟨da + e.2.2, by simp [upd], le_of_lt (ltE_some_some hlt)⟩
    · exact ⟨b, by simpa [upd, hveq] using hv, le_refl b⟩

lemma bfRelax_flag {st : (String → EW) × (String → Option String) × Bool}
    {e : Edge} (h : st.2.2 = true) : (bfRelax st e).2.2 = true := by
  rcases bfRelax_eq st e with ⟨he, _⟩ | ⟨da, _, _, he⟩ <;> rw [he]
  · exact h

lemma foldRelax_mono (es : List Edge)
    (st : (String → EW) × (String → Option String) × Bool) :
    Mono st.1 (es.foldl bfRelax st).1 := by
  induction es generalizing st with
  | nil => exact mono_refl _
  | cons e rest ih =>
    exact mono_trans (bfRelax_mono st e) (ih (bfRelax st e))

lemma foldRelax_flag (es : List Edge)
    {st : (String → EW) × (String → Option String) × Bool}
    (h : st.2.2 = true) : (es.foldl bfRelax st).2.2 = true := by
  induction es generalizing st with
  | nil => exact h
  | cons e rest ih => exact ih (bfRelax_flag h)

lemma foldRelax_flag_false {es : List Edge} {d : String → EW}
    {p : String → Option String}
    (h : (es.foldl bfRelax (d, p, false)).2.2 = false) :
    es.foldl bfRelax (d, p, false) = (d, p, false) ∧
      ∀ e ∈ es, ltE (addE (d e.1) e.2.2) (d e.2.1) = false := by
  induction es with
  | nil => exact ⟨rfl, by simp⟩
  | cons e rest ih =>
    rcases bfRelax_eq (d, p, false) e with ⟨he, hcond⟩ | ⟨da, hda, hlt, he⟩
    · rw [List.foldl_cons, he] at h
      obtain ⟨hfold, hall⟩ := ih h
      refine ⟨by rw [List.foldl_cons, he, hfold], ?_⟩
      intro e' he'
      rcases List.mem_cons.mp he' with rfl | he''
      · exact hcond
      · exact hall e' he''
    · exfalso
      rw [List.foldl_cons, he] at h
      have := @foldRelax_flag rest (upd d e.2.1 (some (da + e.2.2)),
        upd p e.2.1 (some e.1), true) rfl
      rw [this] at h
      simp at h

lemma bfRelax_sound {g : Graph} {s : String} (hwf : Wf g)
    {st : (String → EW) × (String → Option String) × Bool} {e : Edge}
    (hE : e ∈ g.edges) (hst : Sound g s st.1) : Sound g s (bfRelax st e).1 := by
  rcases bfRelax_eq st e with ⟨h, _⟩ | ⟨da, hda, hlt, h⟩
  · rw [h]; exact hst
  · rw [h]
    intro v c hv
    by_cases hveq : v = e.2.1
    · subst hveq
      simp only [upd, if_pos rfl] at hv
      obtain ⟨rfl⟩ : da + e.2.2 = c := by simpa using hv
      obtain ⟨l, hl, hwt⟩ := hst e.1 da hda
      have hedge : wOf g e.1 e.2.1 = some e.2.2 := by
        rw [wOf_eq_some_iff hwf]
        exact hE
      obtain ⟨hw2, hwt2⟩ := walks_snoc hl hedge
      exact ⟨l ++ [e.2.1], hw2, by rw [hwt2, hwt]⟩
    · simp only [upd, if_neg hveq] at hv
      exact hst v c hv

lemma foldRelax_sound {g : Graph} {s : String} (hwf : Wf g) (es : List Edge)
    (hes : ∀ e ∈ es, e ∈ g.edges)
    (st : (String → EW) × (String → Option String) × Bool)
    (hst : Sound g s st.1) : Sound g s (es.foldl bfRelax st).1 := by
  induction es generalizing st with
  | nil => exact hst
  | cons e rest ih =>
    exact ih (fun e' he' => hes e' (List.mem_cons_of_mem _ he'))
      (bfRelax st e)
      (bfRelax_sound hwf (hes e (List.mem_cons_self _ _)) hst)

lemma bfRelax_sinv {s : String}
    {st : (String → EW) × (String → Option String) × Bool} {e : Edge}
    (hs : SInv s st.1 st.2.1) : SInv s (bfRelax st e).1 (bfRelax st e).2.1 := by
  rcases bfRelax_eq st e with ⟨h, _⟩ | ⟨da, hda, hlt, h⟩
  · rw [h]; exact hs
  · rw [h]
    by_cases hse : s = e.2.1
    · obtain ⟨⟨c0, hc0, hc0le⟩, _⟩ := hs
      rw [← hse] at hlt ⊢
      rw [hc0] at hlt
      have hltc : da + e.2.2 < c0 := ltE_some_some hlt
      have hneg : da + e.2.2 < 0 := lt_of_lt_of_le hltc hc0le
      constructor
      · exact ⟨da + e.2.2, by simp [upd], le_of_lt hneg⟩
      · intro _
        exact ⟨da + e.2.2, by simp [upd], hneg⟩
    · obtain ⟨h1, h2⟩ := hs
      have hsne : s ≠ e.2.1 := hse
      constructor
      · obtain ⟨c, hc, hcle⟩ := h1
        exact ⟨c, by simpa [upd, hsne] using hc, hcle⟩
      · intro hp
        simp only [upd, if_neg hsne] at hp
        obtain ⟨c, hc, hclt⟩ := h2 hp
        exact ⟨c, by simpa [upd, hsne] using hc, hclt⟩

lemma foldRelax_sinv {s : String} (es : List Edge)
    (st : (String → EW) × (String → Option String) × Bool)
    (hs : SInv s st.1 st.2.1) :
    SInv s (es.foldl bfRelax st).1 (es.foldl bfRelax st).2.1 := by
  induction es generalizing st with
  | nil => exact hs
  | cons e rest ih => exact ih (bfRelax st e) (bfRelax_sinv hs)

lemma bfRelax_eq_of_false {st : (String → EW) × (String → Option String) × Bool}
    {e : Edge} (h : ltE (addE (st.1 e.1) e.2.2) (st.1 e.2.1) = false) :
    bfRelax st e = st := by
  unfold bfRelax
  rw [h]
  simp

lemma foldRelax_bound (es : List Edge)
    (st : (String → EW) × (String → Option String) × Bool) :
    ∀ e ∈ es, ∀ da, st.1 e.1 = some da →
      ∃ db, (es.foldl bfRelax st).1 e.2.1 = some db ∧ db ≤ da + e.2.2 := by
  induction es generalizing st with
  | nil => simp
  | cons e0 rest ih =>
    intro e he da hda
    rcases List.mem_cons.mp he with rfl | he'
    · have hstep : ∃ d1, (bfRelax st e).1 e.2.1 = some d1 ∧ d1 ≤ da + e.2.2 := by
        cases hc : ltE (addE (st.1 e.1) e.2.2) (st.1 e.2.1) with
        | true =>
          rcases bfRelax_eq st e with ⟨_, hcond⟩ | ⟨da', hda', _, hrel⟩
          · rw [hcond] at hc; exact absurd hc (by simp)
          · have hdd : da' = da := by
              rw [hda'] at hda; exact Option.some_inj.mp hda
            subst hdd
            rw [hrel]
            exact ⟨da' + e.2.2, by simp [upd], le_refl _⟩
        | false =>
          rw [bfRelax_eq_of_false hc]
          rw [hda] at hc
          obtain ⟨db, hdb, hle⟩ := @ltE_false_le _ (st.1 e.2.1)
            (by simpa [addE] using hc)
          exact ⟨db, hdb, hle⟩
      obtain ⟨d1, hd1, hle⟩ := hstep
      obtain ⟨d2, hd2, hle2⟩ := foldRelax_mono rest (bfRelax st e) e.2.1 d1 hd1
      exact ⟨d2, hd2, le_trans hle2 hle⟩
    · obtain ⟨da', hda', hle'⟩ := bfRelax_mono st e0 e.1 da hda
      obtain ⟨db, hdb, hle2⟩ := ih (bfRelax st e0) e he' da' hda'
      exact ⟨db, hdb, le_trans hle2 (by linarith)⟩

lemma bfLoop_mono (g : Graph) (k : Nat) :
    ∀ d p, Mono d (bfLoop g k d p).1 := by
  induction k with
  | zero => intro d p; exact mono_refl d
  | succ k ih =>
    intro d p
    simp only [bfLoop]
    split
    · exact mono_trans (foldRelax_mono g.edges (d, p, false)) (ih _ _)
    · exact foldRelax_mono g.edges (d, p, false)

lemma bfLoop_sound {g : Graph} {s : String} (hwf : Wf g) (k : Nat) :
    ∀ d p, Sound g s d → Sound g s (bfLoop g k d p).1 := by
  induction k with
  | zero => intro d p h; exact h
  | succ k ih =>
    intro d p h
    simp only [bfLoop]
    split
    · exact ih _ _ (foldRelax_sound hwf g.edges (fun e hE => hE) _ h)
    · exact foldRelax_sound hwf g.edges (fun e hE => hE) _ h

lemma bfLoop_sinv {g : Graph} {s : String} (k : Nat) :
    ∀ d p, SInv s d p → SInv s (bfLoop g k d p).1 (bfLoop g k d p).2 := by
  induction k with
  | zero => intro d p h; exact h
  | succ k ih =>
    intro d p h
    simp only [bfLoop]
    split
    · exact ih _ _ (foldRelax_sinv g.edges _ h)
    · exact foldRelax_sinv g.edges _ h

lemma bfPass_boundK {g : Graph} {s : String} (hwf : Wf g)
    {d : String → EW} {p : String → Option String} {j : Nat}
    (hb : BoundK g s d j) :
    BoundK g s (g.edges.foldl bfRelax (d, p, false)).1 (j + 1) := by
  intro v l hw hlen
  by_cases hsmall : l.length ≤ j + 1
  · obtain ⟨c, hc, hle⟩ := hb v l hw hsmall
    obtain ⟨c', hc', hle'⟩ := foldRelax_mono g.edges (d, p, false) v c hc
    exact ⟨c', hc', le_trans hle' hle⟩
  · have hlen2 : 2 ≤ l.length := by
      rcases hw with ⟨hc, hh, _⟩
      cases l with
      | nil => simp at hh
      | cons x rest =>
        cases rest with
        | nil =>
          exfalso
          exact hsmall (by simp)
        | cons y r => simp [Nat.succ_le_succ, Nat.le_add_left]
    obtain ⟨l', a, w, hsplit, hw', hwe, hwt⟩ := walks_init hw hlen2
    have hl'len : l'.length ≤ j + 1 := by
      have : l.length = l'.length + 1 := by rw [hsplit]; simp
      omega
    obtain ⟨ca, hca, hcale⟩ := hb a l' hw' hl'len
    have hedge : (a, v, w) ∈ g.edges := (wOf_eq_some_iff hwf).mp hwe
    obtain ⟨db, hdb, hdble⟩ :=
      foldRelax_bound g.edges (d, p, false) (a, v, w) hedge ca hca
    refine ⟨db, hdb, ?_⟩
    rw [hwt]
    calc db ≤ ca + w := hdble
      _ ≤ walkWt g l' + w := by linarith

lemma bfLoop_stable_or_bound {g : Graph} {s : String} (hwf : Wf g) :
    ∀ (k : Nat) (d : String → EW) (p : String → Option String) (j : Nat),
      BoundK g s d j →
      stableD g (bfLoop g k d p).1 ∨ BoundK g s (bfLoop g k d p).1 (j + k) := by
  intro k
  induction k with
  | zero => intro d p j hb; exact Or.inr hb
  | succ k ih =>
    intro d p j hb
    simp only [bfLoop]
    cases hflag : (bfPass g d p).2.2 with
    | true =>
      have hb1 : BoundK g s (bfPass g d p).1 (j + 1) := bfPass_boundK hwf hb
      rcases ih (bfPass g d p).1 (bfPass g d p).2.1 (j + 1) hb1 with h | h
      · left
        simpa [hflag] using h
      · right
        have harith : j + 1 + k = j + (k + 1) := by omega
        rw [harith] at h
        simpa [hflag] using h
    | false =>
      left
      obtain ⟨hfold, hall⟩ := @foldRelax_flag_false g.edges d p hflag
      have : (bfPass g d p).1 = d := by
        unfold bfPass
        rw [hfold]
      simp only [hflag, Bool.false_eq_true, if_false]
      rw [this]
      exact hall

lemma detect_none_iff (g : Graph) (d : String → EW) :
    detectNegativeCycle g d = none ↔ stableD g d := by
  unfold detectNegativeCycle findRelaxable
  cases hf : g.edges.find? (fun e => ltE (addE (d e.1) e.2.2) (d e.2.1)) with
  | none =>
    simp only
    constructor
    · intro _ e hE
      have := List.find?_eq_none.mp hf e hE
      simpa using this
    · intro _; trivial
  | some e =>
    simp only
    constructor
    · intro h; exact absurd h (by simp)
    · intro hstab
      have he : e ∈ g.edges := List.mem_of_find?_eq_some hf
      have hprop := List.find?_some hf
      rw [hstab e he] at hprop
      simp at hprop

lemma bf_initial_sound (g : Graph) (s : String) :
    Sound g s (fun v => if v = s then some 0 else none) := by
  intro v c hv
  by_cases hvs : v = s
  · subst hvs
    have hc : c = 0 := by
      simp at hv
      omega
    subst hc
    exact ⟨[v], walks_single g v, rfl⟩
  · simp [hvs] at hv

lemma bf_initial_sinv (s : String) :
    SInv s (fun v => if v = s then some 0 else none) (fun _ => none) :=
  ⟨⟨0, by simp, le_refl 0⟩, fun h => absurd rfl h⟩

lemma bf_initial_boundK (g : Graph) (s : String) :
    BoundK g s (fun v => if v = s then some 0 else none) 0 := by
  intro v l hw hlen
  rcases hw with ⟨hc, hh, hl⟩
  cases l with
  | nil => simp at hh
  | cons x rest =>
    cases rest with
    | nil =>
      simp only [List.head?_cons, Option.some_inj] at hh
      have hx : x = v := by simpa using hl
      subst hh; subst hx
      exact ⟨0, by simp, by simp [walkWt]⟩
    | cons y r => simp at hlen

/-- C1 counterexample: on the graph `A→B:-5, B→A:2` (a negative cycle
of total weight `-3` through the start node), `BellmanFordAlgorithm`
does raise the negative-cycle error, but the payload it carries is the
list `[A, B]` with reported cost `2`: the reported cost is positive,
not non-positive, and the list is not a closed walk (it starts at `A`
and ends at `B`), because `_detect_negative_cycle` sums edge weights
along the reversed (backward) order of its reconstruction. -/
theorem C1_cycle_payload_counterexample :
    bellmanFord twoCycleGraph "A" "B" = .error (.negCycle ["A", "B"] 2) ∧
    ¬ ((2 : ℤ) ≤ 0) ∧
    (["A", "B"].head? ≠ ["A", "B"].getLast?) := by
  refine ⟨by decide, by decide, by decide⟩

/-- C1 (amended): for every graph with a negative-weight cycle
reachable from `start` (both endpoints being nodes of the graph),
`BellmanFordAlgorithm.compute` raises `NegativeCycleError` — it never
returns a finite shortest path — and the error carries the
reconstructed node list and its reported cost (which, per the
counterexample, need not be a closed walk nor have non-positive
cost). -/
theorem C1_amended_negative_cycle_detected (g : Graph) (hwf : Wf g)
    (s t v : String) (hs : s ∈ g.nodes) (ht : t ∈ g.nodes)
    (lr lc : List String) (hreach : Walks g s v lr) (hcyc : Walks g v v lc)
    (hneg : walkWt g lc < 0) :
    ∃ cyc cost, bellmanFord g s t = .error (.negCycle cyc cost) := by
  have hs' : (s ∉ g.nodes) = False := eq_false (not_not_intro hs)
  have ht' : (t ∉ g.nodes) = False := eq_false (not_not_intro ht)
  simp only [bellmanFord, hs', ht', if_false]
  cases hdet : detectNegativeCycle g (bfLoop g (g.nodes.length - 1)
      (fun v' => if v' = s then some 0 else none) (fun _ => none)).1 with
  | some pr =>
    obtain ⟨cyc, cost⟩ := pr
    exact ⟨cyc, cost, rfl⟩
  | none =>
    exfalso
    have hstab : stableD g (bfLoop g (g.nodes.length - 1)
        (fun v' => if v' = s then some 0 else none) (fun _ => none)).1 :=
      (detect_none_iff _ _).mp hdet
    obtain ⟨⟨c, hc, hcle⟩, _⟩ := @bfLoop_sinv g s (g.nodes.length - 1)
      _ _ (bf_initial_sinv s)
    obtain ⟨dv, hdv, _⟩ := stable_walk hwf hstab hreach.1 s v c
      hreach.2.1 hreach.2.2 hc
    obtain ⟨dv', hdv', hle⟩ := stable_walk hwf hstab hcyc.1 v v dv
      hcyc.2.1 hcyc.2.2 hdv
    rw [hdv] at hdv'
    have hdd : dv = dv' := Option.some_inj.mp hdv'
    rw [← hdd] at hle
    linarith

/-- C1 witness: the amended theorem applied to the concrete graph
`A→B:-5, B→A:2` with its reachable negative cycle `[A, B, A]` of
weight `-3`. -/
theorem C1_amended_negative_cycle_detected_witness :
    ∃ cyc cost, bellmanFord twoCycleGraph "A" "B" =
      .error (.negCycle cyc cost) :=
  C1_amended_negative_cycle_detected twoCycleGraph
    (wf_fromEdgeList _) "A" "B" "A" (by decide) (by decide)
    ["A"] ["A", "B", "A"] ⟨by decide, rfl, rfl⟩
    ⟨by decide, rfl, by decide⟩ (by decide)

lemma chain_split {g : Graph} (l1 : List String) (x : String) (l2 : List String)
    (h : isChain g (l1 ++ x :: l2) = true) :
    isChain g (l1 ++ [x]) = true ∧ isChain g (x :: l2) = true := by
  induction l1 with
  | nil => exact ⟨rfl, h⟩
  | cons a l1' ih =>
    cases l1' with
    | nil =>
      simp only [List.nil_append, List.cons_append, isChain,
        Bool.and_eq_true] at h ⊢
      exact ⟨⟨h.1, trivial⟩, h.2⟩
    | cons b l1'' =>
      simp only [List.cons_append, isChain, Bool.and_eq_true] at h
      obtain ⟨hab, hrest⟩ := h
      obtain ⟨h1, h2⟩ := ih (by simpa using hrest)
      refine ⟨?_, h2⟩
      simp only [List.cons_append, isChain, Bool.and_eq_true]
      exact ⟨hab, by simpa using h1⟩

lemma chain_glue {g : Graph} (l1 : List String) (x : String) (l3 : List String)
    (h1 : isChain g (l1 ++ [x]) = true) (h3 : isChain g (x :: l3) = true) :
    isChain g (l1 ++ x :: l3) = true := by
  induction l1 with
  | nil => exact h3
  | cons a l1' ih =>
    cases l1' with
    | nil =>
      simp only [List.nil_append, List.cons_append, isChain,
        Bool.and_eq_true] at h1 ⊢
      exact ⟨h1.1, h3⟩
    | cons b l1'' =>
      simp only [List.cons_append, isChain, Bool.and_eq_true] at h1 ⊢
      exact ⟨h1.1, by simpa using ih (by simpa using h1.2)⟩

lemma wt_split {g : Graph} (l1 : List String) (x : String) (l2 : List String) :
    walkWt g (l1 ++ x :: l2) = walkWt g (l1 ++ [x]) + walkWt g (x :: l2) := by
  induction l1 with
  | nil => simp [walkWt]
  | cons a l1' ih =>
    cases l1' with
    | nil =>
      simp only [List.nil_append, List.cons_append, walkWt]
      ring
    | cons b l1'' =>
      simp only [List.cons_append, walkWt] at ih ⊢
      show (wOf g a b).getD 0 + walkWt g (b :: (l1'' ++ x :: l2)) =
        (wOf g a b).getD 0 + walkWt g (b :: (l1'' ++ [x])) + walkWt g (x :: l2)
      rw [ih]
      ring

lemma getLast?_append_right {α : Type} (l1 l2 : List α) (h : l2 ≠ []) :
    (l1 ++ l2).getLast? = l2.getLast? := by
  rw [List.getLast?_append]
  cases hgl : l2.getLast? with
  | none => exact absurd (List.getLast?_eq_none_iff.mp hgl) h
  | some y => rfl

lemma not_nodup_split {l : List String} (h : ¬ l.Nodup) :
    ∃ l1 x l2 l3, l = l1 ++ x :: (l2 ++ x :: l3) := by
  induction l with
  | nil => simp at h
  | cons a rest ih =>
    by_cases ha : a ∈ rest
    · obtain ⟨s1, s2, hsplit⟩ := List.append_of_mem ha
      exact ⟨[], a, s1, s2, by rw [hsplit]; rfl⟩
    · have hrest : ¬ rest.Nodup := by
        intro hc
        exact h (List.nodup_cons.mpr ⟨ha, hc⟩)
      obtain ⟨l1, x, l2, l3, hsplit⟩ := ih hrest
      exact ⟨a :: l1, x, l2, l3, by rw [hsplit]; rfl⟩

lemma walk_shorten {g : Graph} (hwf : Wf g)
    (hnn : ∀ e ∈ g.edges, 0 ≤ e.2.2) (hg1 : 1 ≤ g.nodes.length)
    {s t : String} :
    ∀ (N : Nat) (l : List String), l.length ≤ N → Walks g s t l →
      ∃ l', Walks g s t l' ∧ l'.length ≤ g.nodes.length ∧
        walkWt g l' ≤ walkWt g l := by
  intro N
  induction N with
  | zero =>
    intro l hlen hw
    exfalso
    have := chain_ne_nil hw.1
    cases l with
    | nil => exact this rfl
    | cons a r => simp at hlen
  | succ N ih =>
    intro l hlen hw
    by_cases hshort : l.length ≤ g.nodes.length
    · exact ⟨l, hw, hshort, le_refl _⟩
    · have hlen2 : 2 ≤ l.length := by omega
      have hsub : ∀ x ∈ l, x ∈ g.nodes := chain_mem_nodes hwf hw.1 hlen2
      have hnodup : ¬ l.Nodup := by
        intro hnd
        exact hshort (List.Subperm.length_le (hnd.subperm hsub))
      obtain ⟨l1, x, l2, l3, hsplit⟩ := not_nodup_split hnodup
      obtain ⟨hc, hh, hl⟩ := hw
      rw [hsplit] at hc hh hl
      have hc1 := chain_split l1 x (l2 ++ x :: l3) hc
      have hc2 := chain_split (x :: l2) x l3 (by simpa using hc1.2)
      have hglue : isChain g (l1 ++ x :: l3) = true :=
        chain_glue l1 x l3 hc1.1 hc2.2
      have hcyc0 : 0 ≤ walkWt g ((x :: l2) ++ [x]) :=
        walkWt_nonneg hwf hnn hc2.1
      have hwtle : walkWt g (l1 ++ x :: l3) ≤
          walkWt g (l1 ++ x :: (l2 ++ x :: l3)) := by
        rw [@wt_split g l1 x (l2 ++ x :: l3), @wt_split g l1 x l3]
        have hxl : walkWt g (x :: (l2 ++ x :: l3)) =
            walkWt g ((x :: l2) ++ [x]) + walkWt g (x :: l3) := by
          have h0 := @wt_split g (x :: l2) x l3
          simpa using h0
        rw [hxl]
        linarith
      have hhead : (l1 ++ x :: l3).head? = some s := by
        cases l1 with
        | nil => simpa using hh
        | cons a r => simpa using hh
      have hlast : (l1 ++ x :: l3).getLast? = some t := by
        have h1 : (l1 ++ x :: l3).getLast? = (x :: l3).getLast? :=
          getLast?_append_right _ _ (by simp)
        have h2 : (l1 ++ x :: (l2 ++ x :: l3)).getLast? = (x :: l3).getLast? := by
          rw [show l1 ++ x :: (l2 ++ x :: l3) = (l1 ++ x :: l2) ++ x :: l3 by simp]
          exact getLast?_append_right _ _ (by simp)
        rw [h1, ← h2]
        exact hl
      have hlen' : (l1 ++ x :: l3).length ≤ N := by
        have hlo : (l1 ++ x :: (l2 ++ x :: l3)).length =
            l1.length + l2.length + l3.length + 2 := by simp; omega
        have hln : (l1 ++ x :: l3).length = l1.length + l3.length + 1 := by
          simp; omega
        rw [hsplit] at hlen
        omega
      obtain ⟨l', hw', hlen'', hwt''⟩ := ih (l1 ++ x :: l3) hlen'
        ⟨hglue, hhead, hlast⟩
      refine ⟨l', hw', hlen'', ?_⟩
      rw [hsplit]
      exact le_trans hwt'' hwtle

lemma nodes_length_pos {g : Graph} {s : String} (hs : s ∈ g.nodes) :
    1 ≤ g.nodes.length := by
  cases hgn : g.nodes with
  | nil => rw [hgn] at hs; simp at hs
  | cons a r => simp

/-- On a graph with no negative weights, `BellmanFordAlgorithm.compute`
succeeds for every reachable goal and its returned cost is the optimal
walk weight: realized by an actual walk and a lower bound of every
walk's weight. -/
theorem bellmanFord_optimal {g : Graph} (hwf : Wf g) {s t : String}
    (hnn : g.hasNegativeWeights = false) (hs : s ∈ g.nodes) (ht : t ∈ g.nodes)
    (hreach : Reach g s t) :
    ∃ p c, bellmanFord g s t = .ok (p, c) ∧
      (∃ l, Walks g s t l ∧ walkWt g l = c) ∧
      (∀ l, Walks g s t l → c ≤ walkWt g l) := by
  have hnn' : ∀ e ∈ g.edges, 0 ≤ e.2.2 := hasNeg_false_iff.mp hnn
  have hg1 : 1 ≤ g.nodes.length := nodes_length_pos hs
  have hs' : (s ∉ g.nodes) = False := eq_false (not_not_intro hs)
  have ht' : (t ∉ g.nodes) = False := eq_false (not_not_intro ht)
  simp only [bellmanFord, hs', ht', if_false]
  set dp := bfLoop g (g.nodes.length - 1)
    (fun v' => if v' = s then some 0 else none) (fun _ => none) with hdp
  have hsound : Sound g s dp.1 := by
    rw [hdp]; exact bfLoop_sound hwf _ _ _ (bf_initial_sound g s)
  have hsinv : SInv s dp.1 dp.2 := by
    rw [hdp]; exact bfLoop_sinv _ _ _ (bf_initial_sinv s)
  have hstab : stableD g dp.1 := by
    rcases bfLoop_stable_or_bound hwf (g.nodes.length - 1)
        (fun v' => if v' = s then some 0 else none) (fun _ => none) 0
        (bf_initial_boundK g s) with h | hB
    · rw [hdp]; exact h
    · rw [hdp]
      intro e hE
      set d1 := (bfLoop g (g.nodes.length - 1)
        (fun v' => if v' = s then some 0 else none) (fun _ => none)).1 with hd1
      cases hde : d1 e.1 with
      | none => rfl
      | some da =>
        obtain ⟨l1, hl1, hwt1⟩ := hsound e.1 da hde
        have hedge : wOf g e.1 e.2.1 = some e.2.2 := (wOf_eq_some_iff hwf).mpr hE
        obtain ⟨hw2, hwt2⟩ := walks_snoc hl1 hedge
        obtain ⟨l2', hw2', hlen2', hwt2'⟩ := walk_shorten hwf hnn' hg1
          (l1 ++ [e.2.1]).length _ (le_refl _) hw2
        have hlenB : l2'.length ≤ (0 + (g.nodes.length - 1)) + 1 := by omega
        obtain ⟨db, hdb, hdble⟩ := hB e.2.1 l2' hw2' hlenB
        rw [hdb]
        have hfin : db ≤ da + e.2.2 := by
          calc db ≤ walkWt g l2' := hdble
            _ ≤ walkWt g (l1 ++ [e.2.1]) := hwt2'
            _ = da + e.2.2 := by rw [hwt2, hwt1]
        simp only [addE, Option.map_some', ltE, decide_eq_false_iff_not, not_lt]
        exact hfin
  have hdet : detectNegativeCycle g dp.1 = none := (detect_none_iff _ _).mpr hstab
  obtain ⟨⟨c0, hc0, hc0le⟩, hprev⟩ := hsinv
  obtain ⟨l0, hl0, hwt0⟩ := hsound s c0 hc0
  have hc0ge : 0 ≤ c0 := by
    rw [← hwt0]; exact walkWt_nonneg hwf hnn' hl0.1
  have hc00 : c0 = 0 := le_antisymm hc0le hc0ge
  obtain ⟨lw, hlw⟩ := hreach
  obtain ⟨ct, hct, hctle⟩ := stable_walk hwf hstab hlw.1 s t c0
    hlw.2.1 hlw.2.2 hc0
  refine ⟨(chainList g.nodes.length dp.2 t).reverse, ct, ?_, ?_, ?_⟩
  · rw [hdet, hct]
    simp
  · exact hsound t ct hct
  · intro l hl
    obtain ⟨ct', hct', hle'⟩ := stable_walk hwf hstab hl.1 s t c0
      hl.2.1 hl.2.2 hc0
    rw [hct] at hct'
    have hcc : ct = ct' := Option.some_inj.mp hct'
    rw [← hcc, hc00] at hle'
    linarith

/-- When start equals goal, `BellmanFordAlgorithm.compute` either
raises the negative-cycle error or returns the single-node path
`[start]` with cost 0. -/
lemma bellmanFord_self {g : Graph} (hwf : Wf g) {s : String}
    (hs : s ∈ g.nodes) :
    (∃ cyc cost, bellmanFord g s s = .error (.negCycle cyc cost)) ∨
    bellmanFord g s s = .ok ([s], 0) := by
  have hs' : (s ∉ g.nodes) = False := eq_false (not_not_intro hs)
  simp only [bellmanFord, hs', if_false]
  set dp := bfLoop g (g.nodes.length - 1)
    (fun v' => if v' = s then some 0 else none) (fun _ => none) with hdp
  cases hdet : detectNegativeCycle g dp.1 with
  | some pr =>
    obtain ⟨cyc, cost⟩ := pr
    left
    exact ⟨cyc, cost, rfl⟩
  | none =>
    right
    have hstab := (detect_none_iff _ _).mp hdet
    have hsound : Sound g s dp.1 := by
      rw [hdp]; exact bfLoop_sound hwf _ _ _ (bf_initial_sound g s)
    have hsinv : SInv s dp.1 dp.2 := by
      rw [hdp]; exact bfLoop_sinv _ _ _ (bf_initial_sinv s)
    obtain ⟨⟨c0, hc0, hc0le⟩, hprev⟩ := hsinv
    obtain ⟨l0, hl0, hwt0⟩ := hsound s c0 hc0
    obtain ⟨c0', hc0', hle0⟩ := stable_walk hwf hstab hl0.1 s s c0
      hl0.2.1 hl0.2.2 hc0
    rw [hc0] at hc0'
    have hcc : c0 = c0' := Option.some_inj.mp hc0'
    have hge : 0 ≤ c0 := by
      rw [← hcc] at hle0
      rw [hwt0] at hle0
      linarith
    have hc00 : c0 = 0 := le_antisymm hc0le hge
    have hps : dp.2 s = none := by
      by_contra hps
      obtain ⟨c1, hc1, hc1lt⟩ := hprev hps
      rw [hc0] at hc1
      have := Option.some_inj.mp hc1
      omega
    rw [hc0]
    have hchain : chainList g.nodes.length dp.2 s = [s] := by
      cases hn : g.nodes.length with
      | zero =>
        have := nodes_length_pos hs
        omega
      | succ m => simp [chainList, hps]
    rw [hchain]
    simp [hc00]

lemma dijkstra_neg (g : Graph) (s t : String)
    (h : g.hasNegativeWeights = true) :
    dijkstra g s t = .error .negativeWeight := by
  unfold dijkstra
  rw [h]
  rfl

lemma dijkstra_self {g : Graph} (hnn : g.hasNegativeWeights = false)
    {s : String} (hs : s ∈ g.nodes) : dijkstra g s s = .ok ([s], 0) := by
  have h1 : (g.hasNegativeWeights = true) = False := by simp [hnn]
  have hs' : (s ∉ g.nodes) = False := eq_false (not_not_intro hs)
  have hchain : chainList g.nodes.length (fun _ => (none : Option String)) s
      = [s] := by
    cases hn : g.nodes.length with
    | zero =>
      have := nodes_length_pos hs
      omega
    | succ m => simp [chainList]
  have hfuel : dijkstraFuel g =
      (g.nodes.length * (g.edges.length + 1) + 1) + 1 := rfl
  simp only [dijkstra, h1, hs', if_false, hfuel, dijkstraLoop, popMin]
  simp [hchain]

lemma computeRoute_fresh_self (es : List Edge) (s rid gid hint : String)
    (now : ℤ) (hs : s ∈ (Graph.fromEdgeList es).nodes) :
    (computeRoute freshCache (Graph.fromEdgeList es)
        ⟨rid, gid, s, s, hint, true⟩ now).1.status = "error" ∧
    (computeRoute freshCache (Graph.fromEdgeList es)
        ⟨rid, gid, s, s, hint, true⟩ now).1.path = none := by
  have hwf := wf_fromEdgeList es
  have hs' : (s ∉ (Graph.fromEdgeList es).nodes) = False :=
    eq_false (not_not_intro hs)
  simp only [computeRoute, cacheGet, lookupKey, freshCache, List.find?_nil,
    Option.map_none', hs', if_false]
  rcases hsel : selectAlgorithm (Graph.fromEdgeList es) hint with e | alg
  · exact ⟨rfl, rfl⟩
  · cases alg with
    | dijkstraAlg =>
      cases hneg : (Graph.fromEdgeList es).hasNegativeWeights with
      | false =>
        have hd := dijkstra_self hneg hs
        simp only [runAlgorithm]
        rw [hd]
        simp [validatePath, errResponse]
      | true =>
        have hd := dijkstra_neg (Graph.fromEdgeList es) s s hneg
        simp only [runAlgorithm]
        rw [hd]
        exact ⟨rfl, rfl⟩
    | bellmanFordAlg =>
      rcases bellmanFord_self hwf hs with ⟨cyc, cost, hbf⟩ | hbf
      · simp only [runAlgorithm]
        rw [hbf]
        exact ⟨rfl, rfl⟩
      · simp only [runAlgorithm]
        rw [hbf]
        simp [validatePath, errResponse]

lemma popMin_none {l : List (ℤ × String)} : popMin l = none ↔ l = [] := by
  cases l with
  | nil => simp [popMin]
  | cons x rest =>
    cases hrest : popMin rest with
    | none => simp [popMin, hrest]
    | some mr =>
      obtain ⟨mm, rest'⟩ := mr
      simp only [popMin, hrest]
      split <;> simp

lemma popMin_split {l : List (ℤ × String)} {m : ℤ × String}
    {l' : List (ℤ × String)} (h : popMin l = some (m, l')) :
    ∃ l1 l2, l = l1 ++ m :: l2 ∧ l' = l1 ++ l2 := by
  induction l generalizing m l' with
  | nil => simp [popMin] at h
  | cons x rest ih =>
    cases hrest : popMin rest with
    | none =>
      have hr : rest = [] := popMin_none.mp hrest
      simp only [popMin, hrest, Option.some_inj, Prod.mk.injEq] at h
      exact ⟨[], [], by simp [h.1.symm, hr], by simp [h.2.symm]⟩
    | some mr =>
      obtain ⟨mm, rest'⟩ := mr
      simp only [popMin, hrest] at h
      split at h
      · simp only [Option.some_inj, Prod.mk.injEq] at h
        exact ⟨[], rest, by simp [h.1.symm], by simp [h.2.symm]⟩
      · simp only [Option.some_inj, Prod.mk.injEq] at h
        obtain ⟨l1, l2, hsplit, hrest'⟩ := ih hrest
        refine ⟨x :: l1, l2, ?_, ?_⟩
        · rw [hsplit, h.1]
          rfl
        · rw [← h.2, hrest']
          rfl

lemma popMin_min {l : List (ℤ × String)} {m : ℤ × String}
    {l' : List (ℤ × String)} (h : popMin l = some (m, l')) :
    ∀ x ∈ l, m.1 ≤ x.1 := by
  induction l generalizing m l' with
  | nil => simp [popMin] at h
  | cons x rest ih =>
    cases hrest : popMin rest with
    | none =>
      have hr : rest = [] := popMin_none.mp hrest
      simp only [popMin, hrest, Option.some_inj, Prod.mk.injEq] at h
      intro y hy
      rw [hr] at hy
      rcases List.mem_singleton.mp hy with rfl
      rw [← h.1]
    | some mr =>
      obtain ⟨mm, rest'⟩ := mr
      simp only [popMin, hrest] at h
      split at h
      · next hcond =>
        simp only [Option.some_inj, Prod.mk.injEq] at h
        intro y hy
        rcases List.mem_cons.mp hy with rfl | hy'
        · rw [← h.1]
        · have hmin := ih hrest y hy'
          rw [← h.1]
          rcases hcond with hlt | ⟨heq, _⟩
          · exact le_trans (le_of_lt hlt) hmin
          · rw [heq]; exact hmin
      · next hcond =>
        simp only [Option.some_inj, Prod.mk.injEq] at h
        intro y hy
        rcases List.mem_cons.mp hy with rfl | hy'
        · rw [← h.1]
          push_neg at hcond
          exact hcond.1
        · rw [← h.1]
          exact ih hrest y hy'

lemma popMin_mem_rest {l : List (ℤ × String)} {m : ℤ × String}
    {l' : List (ℤ × String)} (h : popMin l = some (m, l')) :
    (∀ e ∈ l', e ∈ l) ∧ (∀ e ∈ l, e = m ∨ e ∈ l') ∧ m ∈ l ∧
      l'.length + 1 = l.length := by
  obtain ⟨l1, l2, hl, hl'⟩ := popMin_split h
  subst hl
  subst hl'
  refine ⟨?_, ?_, ?_, by simp; omega⟩
  · intro e he
    rcases List.mem_append.mp he with h | h
    · exact List.mem_append.mpr (Or.inl h)
    · exact List.mem_append.mpr (Or.inr (List.mem_cons_of_mem _ h))
  · intro e he
    rcases List.mem_append.mp he with h | h
    · exact Or.inr (List.mem_append.mpr (Or.inl h))
    · rcases List.mem_cons.mp h with rfl | h
      · exact Or.inl rfl
      · exact Or.inr (List.mem_append.mpr (Or.inr h))
  · exact List.mem_append.mpr (Or.inr (List.mem_cons_self _ _))

lemma drelax_dist_ne (u : String) (c : ℤ) (vis : List String)
    (st : (String → EW) × (String → Option String) × List (ℤ × String))
    (vw : String × ℤ) {x : String} (hx : x ≠ vw.1) :
    (dijkstraRelax u c vis st vw).1 x = st.1 x := by
  by_cases h1 : vw.1 ∈ vis
  · simp [dijkstraRelax, h1]
  · by_cases h2 : ltE (some (c + vw.2)) (st.1 vw.1) = true
    · simp [dijkstraRelax, h1, h2, upd, hx]
    · simp [dijkstraRelax, h1, h2]

lemma drelax_heap_grow (u : String) (c : ℤ) (vis : List String)
    (st : (String → EW) × (String → Option String) × List (ℤ × String))
    (vw : String × ℤ) {e : ℤ × String} (he : e ∈ st.2.2) :
    e ∈ (dijkstraRelax u c vis st vw).2.2 := by
  by_cases h1 : vw.1 ∈ vis
  · simpa [dijkstraRelax, h1] using he
  · by_cases h2 : ltE (some (c + vw.2)) (st.1 vw.1) = true
    · simp [dijkstraRelax, h1, h2]
      exact Or.inl he
    · simpa [dijkstraRelax, h1, h2] using he

lemma drelax_heap_len (u : String) (c : ℤ) (vis : List String)
    (st : (String → EW) × (String → Option String) × List (ℤ × String))
    (vw : String × ℤ) :
    (dijkstraRelax u c vis st vw).2.2.length ≤ st.2.2.length + 1 := by
  by_cases h1 : vw.1 ∈ vis
  · simp [dijkstraRelax, h1]
  · by_cases h2 : ltE (some (c + vw.2)) (st.1 vw.1) = true
    · simp [dijkstraRelax, h1, h2]
    · simp [dijkstraRelax, h1, h2]

lemma drelax_mono (u : String) (c : ℤ) (vis : List String)
    (st : (String → EW) × (String → Option String) × List (ℤ × String))
    (vw : String × ℤ) (x : String) (dx : ℤ) (hdx : st.1 x = some dx) :
    ∃ d', (dijkstraRelax u c vis st vw).1 x = some d' ∧ d' ≤ dx := by
  by_cases h1 : vw.1 ∈ vis
  · exact ⟨dx, by simp [dijkstraRelax, h1, hdx], le_refl dx⟩
  · by_cases h2 : ltE (some (c + vw.2)) (st.1 vw.1) = true
    · by_cases hx : x = vw.1
      · have h2' := h2
        subst hx
        rw [hdx] at h2'
        have hlt := ltE_some_some h2'
        exact ⟨c + vw.2, by simp [dijkstraRelax, h1, h2, upd], le_of_lt hlt⟩
      · exact ⟨dx, by simp [dijkstraRelax, h1, h2, upd, hx, hdx], le_refl dx⟩
    · exact ⟨dx, by simp [dijkstraRelax, h1, h2, hdx], le_refl dx⟩

lemma drelax_vis (u : String) (c : ℤ) (vis : List String)
    (st : (String → EW) × (String → Option String) × List (ℤ × String))
    (vw : String × ℤ) {x : String} (hx : x ∈ vis) :
    (dijkstraRelax u c vis st vw).1 x = st.1 x := by
  by_cases h1 : vw.1 ∈ vis
  · simp [dijkstraRelax, h1]
  · have hxv : x ≠ vw.1 := fun hc => h1 (hc ▸ hx)
    exact drelax_dist_ne u c vis st vw hxv

lemma dfold_untouched (u : String) (c : ℤ) (vis : List String) :
    ∀ (L : List (String × ℤ))
      (st : (String → EW) × (String → Option String) × List (ℤ × String))
      (x : String), x ∉ L.map Prod.fst →
      (L.foldl (dijkstraRelax u c vis) st).1 x = st.1 x := by
  intro L
  induction L with
  | nil => intro st x _; rfl
  | cons vw rest ih =>
    intro st x hx
    simp only [List.map_cons, List.mem_cons, not_or] at hx
    rw [List.foldl_cons, ih _ x hx.2]
    exact drelax_dist_ne u c vis st vw hx.1

lemma dfold_grow (u : String) (c : ℤ) (vis : List String) :
    ∀ (L : List (String × ℤ))
      (st : (String → EW) × (String → Option String) × List (ℤ × String))
      (e : ℤ × String), e ∈ st.2.2 →
      e ∈ (L.foldl (dijkstraRelax u c vis) st).2.2 := by
  intro L
  induction L with
  | nil => intro st e he; exact he
  | cons vw rest ih =>
    intro st e he
    rw [List.foldl_cons]
    exact ih _ e (drelax_heap_grow u c vis st vw he)

lemma dfold_len (u : String) (c : ℤ) (vis : List String) :
    ∀ (L : List (String × ℤ))
      (st : (String → EW) × (String → Option String) × List (ℤ × String)),
      (L.foldl (dijkstraRelax u c vis) st).2.2.length ≤
        st.2.2.length + L.length := by
  intro L
  induction L with
  | nil => intro st; simp
  | cons vw rest ih =>
    intro st
    rw [List.foldl_cons]
    have hr := ih (dijkstraRelax u c vis st vw)
    have hs := drelax_heap_len u c vis st vw
    simp only [List.length_cons]
    omega

lemma dfold_mono (u : String) (c : ℤ) (vis : List String) :
    ∀ (L : List (String × ℤ))
      (st : (String → EW) × (String → Option String) × List (ℤ × String))
      (x : String) (dx : ℤ), st.1 x = some dx →
      ∃ d', (L.foldl (dijkstraRelax u c vis) st).1 x = some d' ∧ d' ≤ dx := by
  intro L
  induction L with
  | nil => intro st x dx hdx; exact ⟨dx, hdx, le_refl dx⟩
  | cons vw rest ih =>
    intro st x dx hdx
    obtain ⟨d1, hd1, hle1⟩ := drelax_mono u c vis st vw x dx hdx
    obtain ⟨d2, hd2, hle2⟩ := ih _ x d1 hd1
    rw [List.foldl_cons]
    exact ⟨d2, hd2, le_trans hle2 hle1⟩

lemma dfold_vis (u : String) (c : ℤ) (vis : List String) :
    ∀ (L : List (String × ℤ))
      (st : (String → EW) × (String → Option String) × List (ℤ × String))
      (x : String), x ∈ vis →
      (L.foldl (dijkstraRelax u c vis) st).1 x = st.1 x := by
  intro L
  induction L with
  | nil => intro st x _; rfl
  | cons vw rest ih =>
    intro st x hx
    rw [List.foldl_cons, ih _ x hx]
    exact drelax_vis u c vis st vw hx

lemma dfold_new (u : String) (c : ℤ) (vis : List String) :
    ∀ (L : List (String × ℤ)), (L.map Prod.fst).Nodup →
      ∀ (st : (String → EW) × (String → Option String) × List (ℤ × String))
        (e : ℤ × String), e ∈ (L.foldl (dijkstraRelax u c vis) st).2.2 →
        e ∈ st.2.2 ∨ ∃ z w, (z, w) ∈ L ∧ e = (c + w, z) ∧ z ∉ vis ∧
          (L.foldl (dijkstraRelax u c vis) st).1 z = some (c + w) := by
  intro L
  induction L with
  | nil => intro _ st e he; exact Or.inl he
  | cons vw rest ih =>
    intro hnd st e he
    simp only [List.map_cons, List.nodup_cons] at hnd
    rw [List.foldl_cons] at he
    rcases ih hnd.2 _ e he with he1 | ⟨z, w, hzw, heq, hzv, hdz⟩
    · by_cases h1 : vw.1 ∈ vis
      · left
        simpa [dijkstraRelax, h1] using he1
      · by_cases h2 : ltE (some (c + vw.2)) (st.1 vw.1) = true
        · simp only [dijkstraRelax, h1, if_false, h2, if_true] at he1
          rcases List.mem_append.mp he1 with h | h
          · exact Or.inl h
          · right
            refine ⟨vw.1, vw.2, List.mem_cons_self _ _, by simpa using h, h1, ?_⟩
            rw [List.foldl_cons, dfold_untouched u c vis rest _ vw.1 hnd.1]
            simp [dijkstraRelax, h1, h2, upd]
        · left
          simpa [dijkstraRelax, h1, h2] using he1
    · exact Or.inr ⟨z, w, List.mem_cons_of_mem _ hzw, heq, hzv,
        by rw [List.foldl_cons]; exact hdz⟩

lemma dfold_neighbor (u : String) (c : ℤ) (vis : List String) :
    ∀ (L : List (String × ℤ)), (L.map Prod.fst).Nodup →
      ∀ (st : (String → EW) × (String → Option String) × List (ℤ × String))
        (z : String) (w : ℤ), (z, w) ∈ L → z ∉ vis →
        ((L.foldl (dijkstraRelax u c vis) st).1 z = some (c + w) ∧
          (c + w, z) ∈ (L.foldl (dijkstraRelax u c vis) st).2.2) ∨
        (ltE (some (c + w)) (st.1 z) = false ∧
          (L.foldl (dijkstraRelax u c vis) st).1 z = st.1 z) := by
  intro L
  induction L with
  | nil => intro _ st z w h; simp at h
  | cons vw rest ih =>
    intro hnd st z w hzw hzv
    simp only [List.map_cons, List.nodup_cons] at hnd
    rcases List.mem_cons.mp hzw with heq | hmem
    · have hvw : vw = (z, w) := heq.symm
      subst hvw
      have hznotrest : z ∉ rest.map Prod.fst := by simpa using hnd.1
      by_cases h2 : ltE (some (c + w)) (st.1 z) = true
      · left
        have hstep : (dijkstraRelax u c vis st (z, w)).1 z = some (c + w) := by
          simp [dijkstraRelax, hzv, h2, upd]
        constructor
        · rw [List.foldl_cons, dfold_untouched u c vis rest _ z hznotrest, hstep]
        · have hin : (c + w, z) ∈ (dijkstraRelax u c vis st (z, w)).2.2 := by
            simp [dijkstraRelax, hzv, h2]
          rw [List.foldl_cons]
          exact dfold_grow u c vis rest _ _ hin
      · right
        have h2' : ltE (some (c + w)) (st.1 z) = false :=
          Bool.eq_false_iff.mpr h2
        have hstep : dijkstraRelax u c vis st (z, w) = st := by
          simp [dijkstraRelax, hzv, h2']
        refine ⟨h2', ?_⟩
        rw [List.foldl_cons, hstep, dfold_untouched u c vis rest st z hznotrest]
    · have hzvw : z ≠ vw.1 := fun hc =>
        hnd.1 (hc ▸ List.mem_map_of_mem Prod.fst hmem)
      have hstz : (dijkstraRelax u c vis st vw).1 z = st.1 z :=
        drelax_dist_ne u c vis st vw hzvw
      rcases ih hnd.2 (dijkstraRelax u c vis st vw) z w hmem hzv with h | ⟨hfalse, heqz⟩
      · left
        rw [List.foldl_cons]
        exact h
      · right
        refine ⟨by rw [← hstz]; exact hfalse, by rw [List.foldl_cons, heqz, hstz]⟩

lemma filter_ne_length {u : String} :
    ∀ {m : List String}, m.Nodup → u ∈ m →
      (m.filter (fun x => x ≠ u)).length + 1 = m.length := by
  intro m
  induction m with
  | nil => intro _ h; simp at h
  | cons a rest ih =>
    intro hnd hu
    by_cases hau : a = u
    · subst hau
      have hun : a ∉ rest := (List.nodup_cons.mp hnd).1
      have hkeep : rest.filter (fun x => x ≠ a) = rest := by
        apply List.filter_eq_self.mpr
        intro b hb
        simp only [decide_eq_true_eq]
        exact fun hc => hun (hc ▸ hb)
      rw [List.filter_cons, if_neg (by simp), hkeep]
      simp
    · have hu' : u ∈ rest := by
        rcases List.mem_cons.mp hu with h | h
        · exact absurd h.symm hau
        · exact h
      have hrec := ih (List.nodup_cons.mp hnd).2 hu'
      rw [List.filter_cons, if_pos (by simp [hau])]
      simp only [List.length_cons]
      omega

lemma filter_cons_visited {g : Graph} {u : String} {visited : List String}
    (hnd : g.nodes.Nodup) (hu : u ∈ g.nodes) (huv : u ∉ visited) :
    (g.nodes.filter (fun x => x ∉ u :: visited)).length + 1 =
      (g.nodes.filter (fun x => x ∉ visited)).length := by
  have hsplit : g.nodes.filter (fun x => x ∉ u :: visited) =
      (g.nodes.filter (fun x => x ∉ visited)).filter (fun x => x ≠ u) := by
    rw [List.filter_filter]
    apply List.filter_congr
    intro x _
    by_cases h1 : x = u <;> by_cases h2 : x ∈ visited <;>
      simp [h1, h2, List.mem_cons]
  rw [hsplit]
  exact filter_ne_length (hnd.filter _)
    (List.mem_filter.mpr ⟨hu, by simpa using huv⟩)

lemma dijkstra_descend {g : Graph} (hwf : Wf g)
    (hnn : ∀ e ∈ g.edges, 0 ≤ e.2.2) {s : String}
    {heap : List (ℤ × String)} {dist : String → EW} {visited : List String}
    (inv : DInv g s heap dist visited) :
    ∀ x, x ∉ visited → ∀ l, Walks g s x l →
      ∃ c y, (c, y) ∈ heap ∧ y ∉ visited ∧ c ≤ walkWt g l := by
  obtain ⟨h1, h2, h3, h4, h5, h7, h8⟩ := inv
  suffices hgen : ∀ N x l, x ∉ visited → Walks g s x l → l.length ≤ N →
      ∃ c y, (c, y) ∈ heap ∧ y ∉ visited ∧ c ≤ walkWt g l by
    intro x hx l hl
    exact hgen l.length x l hx hl le_rfl
  intro N
  induction N with
  | zero =>
    intro x l _ hl hlen
    have hne := chain_ne_nil hl.1
    cases l with
    | nil => exact absurd rfl hne
    | cons a rest => simp at hlen
  | succ N ih =>
    intro x l hx hl hlen
    by_cases hone : l.length ≤ 1
    · cases l with
      | nil => exact absurd rfl (chain_ne_nil hl.1)
      | cons a rest =>
        cases rest with
        | nil =>
          have has : a = s := by simpa using hl.2.1
          have hax : a = x := by simpa using hl.2.2
          have hsx : s = x := has ▸ hax
          have hsv : s ∉ visited := by rw [hsx]; exact hx
          obtain ⟨c0, hc0, hle⟩ := h2 hsv
          refine ⟨c0, s, hc0, hsv, ?_⟩
          have hwt0 : walkWt g [a] = 0 := rfl
          rw [hwt0]
          exact hle
        | cons b r => simp at hone
    · have h2l : 2 ≤ l.length := by omega
      obtain ⟨l', a, w, heq, hw', hwe, hwt⟩ := walks_init hl h2l
      have hwnn : 0 ≤ w := hnn _ ((wOf_eq_some_iff hwf).mp hwe)
      by_cases ha : a ∈ visited
      · obtain ⟨da, hda, hdamin⟩ := h5 a ha
        rcases h4 a ha x w hwe with hxv | ⟨dx, da', hdx, hda', hle⟩
        · exact absurd hxv hx
        · rw [hda] at hda'
          injection hda' with hdae
          subst hdae
          obtain ⟨cc, hcmem, hcle⟩ := h3 x hx dx hdx
          refine ⟨cc, x, hcmem, hx, ?_⟩
          rw [hwt]
          have hda_le := hdamin l' hw'
          linarith
      · have hlen2 : l'.length ≤ N := by
          have hlp : l'.length + 1 = l.length := by rw [heq]; simp
          omega
        obtain ⟨cc, y, hcmem, hy, hcle⟩ := ih a l' ha hw' hlen2
        refine ⟨cc, y, hcmem, hy, ?_⟩
        rw [hwt]
        linarith

lemma dinv_init {g : Graph} {s : String} (hs : s ∈ g.nodes) :
    DInv g s [(0, s)] (fun v => if v = s then some 0 else none) [] := by
  refine ⟨?_, ?_, ?_, ?_, ?_, ?_, ?_⟩
  · intro e he
    rcases List.mem_singleton.mp he with rfl
    exact ⟨[s], walks_single g s, rfl⟩
  · intro _
    exact ⟨0, List.mem_singleton.mpr rfl, le_refl 0⟩
  · intro x _ dx hdx
    by_cases hxs : x = s
    · subst hxs
      simp at hdx
      exact ⟨0, List.mem_singleton.mpr rfl, by omega⟩
    · simp [hxs] at hdx
  · intro v hv
    simp at hv
  · intro v hv
    simp at hv
  · intro e he
    rcases List.mem_singleton.mp he with rfl
    exact ⟨0, by simp, le_refl 0⟩
  · intro e he
    rcases List.mem_singleton.mp he with rfl
    simpa using hs

lemma dijkstraLoop_correct {g : Graph} (hwf : Wf g)
    (hnn : ∀ e ∈ g.edges, 0 ≤ e.2.2) {s t : String} (hreach : Reach g s t) :
    ∀ (fuel : Nat) (heap : List (ℤ × String)) (dist : String → EW)
      (prev : String → Option String) (visited : List String),
      DInv g s heap dist visited → t ∉ visited →
      heap.length + (g.nodes.filter (fun x => x ∉ visited)).length *
        (g.edges.length + 1) < fuel →
      ∃ p c, dijkstraLoop g t fuel heap dist prev visited = DOut.found p c ∧
        (∃ l, Walks g s t l ∧ walkWt g l = c) ∧
        (∀ l, Walks g s t l → c ≤ walkWt g l) := by
  intro fuel
  induction fuel with
  | zero =>
    intro heap dist prev visited _ _ hbound
    exact absurd hbound (Nat.not_lt_zero _)
  | succ f ih =>
    intro heap dist prev visited inv htv hbound
    have hinv := inv
    obtain ⟨h1, h2, h3, h4, h5, h7, h8⟩ := inv
    cases hpop : popMin heap with
    | none =>
      exfalso
      have hheap : heap = [] := popMin_none.mp hpop
      obtain ⟨lt, hlt⟩ := hreach
      obtain ⟨cc, y, hcmem, _, _⟩ := dijkstra_descend hwf hnn hinv t htv lt hlt
      rw [hheap] at hcmem
      simp at hcmem
    | some pr =>
      obtain ⟨⟨c, u⟩, heap'⟩ := pr
      obtain ⟨hsub, hcases, hmemm, hlen'⟩ := popMin_mem_rest hpop
      by_cases hu : u ∈ visited
      · -- stale entry: skip, state unchanged
        have inv' : DInv g s heap' dist visited := by
          refine ⟨fun e he => h1 e (hsub e he), ?_, ?_, h4, h5,
            fun e he => h7 e (hsub e he), fun e he => h8 e (hsub e he)⟩
          · intro hsv
            obtain ⟨c0, hc0, hle⟩ := h2 hsv
            rcases hcases _ hc0 with heqq | hin
            · injection heqq with _ hse
              exact absurd (hse ▸ hu) hsv
            · exact ⟨c0, hin, hle⟩
          · intro x hxv dx hdx
            obtain ⟨cc, hcc, hccle⟩ := h3 x hxv dx hdx
            rcases hcases _ hcc with heqq | hin
            · injection heqq with _ hse
              exact absurd (hse ▸ hu) hxv
            · exact ⟨cc, hin, hccle⟩
        have hbound' : heap'.length +
            (g.nodes.filter (fun x => x ∉ visited)).length *
              (g.edges.length + 1) < f := by
          rw [← hlen'] at hbound
          linarith
        obtain ⟨p, cres, hrun, hsound, hminl⟩ :=
          ih heap' dist prev visited inv' htv hbound'
        refine ⟨p, cres, ?_, hsound, hminl⟩
        simp only [dijkstraLoop, hpop]
        rw [if_pos hu, hrun]
      · -- fresh node: dist u is exactly c, and c is optimal for u
        have hcu : (c, u) ∈ heap := hmemm
        obtain ⟨dxu, hdxu0, hdxule⟩ := h7 (c, u) hcu
        have hdxu : dist u = some dxu := hdxu0
        obtain ⟨cc0, hcc0, hcc0le⟩ := h3 u hu dxu hdxu
        have hccge : c ≤ cc0 := popMin_min hpop (cc0, u) hcc0
        have hdu : dist u = some c := by
          rw [hdxu]
          congr 1
          omega
        have hmin : ∀ l, Walks g s u l → c ≤ walkWt g l := by
          intro l hl
          obtain ⟨cc2, y, hmem2, _, hle2⟩ :=
            dijkstra_descend hwf hnn hinv u hu l hl
          have hge2 : c ≤ cc2 := popMin_min hpop (cc2, y) hmem2
          linarith
        by_cases hut : u = t
        · subst hut
          refine ⟨(chainList g.nodes.length prev u).reverse, c, ?_,
            h1 (c, u) hcu, hmin⟩
          simp only [dijkstraLoop, hpop]
          rw [if_neg hu]
          simp
        · -- relax all out-edges of u and recurse
          have hnbnd : ((g.neighbors u).map Prod.fst).Nodup :=
            neighbors_keys_nodup hwf u
          set stN := (g.neighbors u).foldl (dijkstraRelax u c (u :: visited))
            (dist, prev, heap') with hstN
          have hA1 : ∀ x, x ∉ (g.neighbors u).map Prod.fst →
              stN.1 x = dist x := fun x hx =>
            dfold_untouched u c (u :: visited) (g.neighbors u)
              (dist, prev, heap') x hx
          have hA2 : ∀ e ∈ heap', e ∈ stN.2.2 := fun e he =>
            dfold_grow u c (u :: visited) (g.neighbors u)
              (dist, prev, heap') e he
          have hA3 : ∀ e ∈ stN.2.2, e ∈ heap' ∨ ∃ z w,
              (z, w) ∈ g.neighbors u ∧ e = (c + w, z) ∧ z ∉ u :: visited ∧
                stN.1 z = some (c + w) := fun e he =>
            dfold_new u c (u :: visited) (g.neighbors u) hnbnd
              (dist, prev, heap') e he
          have hA4 : stN.2.2.length ≤ heap'.length + (g.neighbors u).length :=
            dfold_len u c (u :: visited) (g.neighbors u) (dist, prev, heap')
          have hA5 : ∀ x dx, dist x = some dx →
              ∃ d', stN.1 x = some d' ∧ d' ≤ dx := fun x dx h =>
            dfold_mono u c (u :: visited) (g.neighbors u)
              (dist, prev, heap') x dx h
          have hA6 : ∀ x ∈ u :: visited, stN.1 x = dist x := fun x hx =>
            dfold_vis u c (u :: visited) (g.neighbors u)
              (dist, prev, heap') x hx
          have hA8 : ∀ z w, (z, w) ∈ g.neighbors u → z ∉ u :: visited →
              (stN.1 z = some (c + w) ∧ (c + w, z) ∈ stN.2.2) ∨
              (ltE (some (c + w)) (dist z) = false ∧ stN.1 z = dist z) :=
            fun z w hzw hzv =>
            dfold_neighbor u c (u :: visited) (g.neighbors u) hnbnd
              (dist, prev, heap') z w hzw hzv
          have hnb_wOf : ∀ z w, (z, w) ∈ g.neighbors u →
              wOf g u z = some w := fun z w h =>
            (wOf_eq_some_iff hwf).mpr (mem_neighbors_edges h)
          have hwOf_nb : ∀ z w, wOf g u z = some w →
              (z, w) ∈ g.neighbors u := fun z w h =>
            (mem_neighbors_iff hwf).mpr ((wOf_eq_some_iff hwf).mp h)
          have hdistu : stN.1 u = some c := by
            rw [hA6 u (List.mem_cons_self u visited)]
            exact hdu
          have inv'' : DInv g s stN.2.2 stN.1 (u :: visited) := by
            refine ⟨?_, ?_, ?_, ?_, ?_, ?_, ?_⟩
            · -- soundness: every heap entry is realized by a walk
              intro e he
              rcases hA3 e he with h | ⟨z, w, hzw, heq, hzv, hdz⟩
              · exact h1 e (hsub e h)
              · obtain ⟨l, hl, hwt⟩ := h1 (c, u) hcu
                obtain ⟨hw2, hwt2⟩ := walks_snoc hl (hnb_wOf z w hzw)
                subst heq
                exact ⟨l ++ [z], hw2, by rw [hwt2, hwt]⟩
            · -- unvisited start keeps a nonpositive entry
              intro hs'
              have hsu : s ≠ u := fun hc => hs' (hc ▸ List.mem_cons_self u visited)
              have hsv : s ∉ visited := fun hc => hs' (List.mem_cons_of_mem u hc)
              obtain ⟨c0, hc0, hle⟩ := h2 hsv
              rcases hcases _ hc0 with heqq | hin
              · injection heqq with _ hse
                exact absurd hse hsu
              · exact ⟨c0, hA2 _ hin, hle⟩
            · -- finite distances of unvisited nodes are covered
              intro x hx dx hdx
              have hxu : x ≠ u := fun hc => hx (hc ▸ List.mem_cons_self u visited)
              have hxv : x ∉ visited := fun hc => hx (List.mem_cons_of_mem u hc)
              by_cases hk : x ∈ (g.neighbors u).map Prod.fst
              · obtain ⟨q, hq, hq1⟩ := List.mem_map.mp hk
                obtain ⟨z, w⟩ := q
                simp only at hq1
                subst hq1
                rcases hA8 z w hq hx with ⟨hdz, hentry⟩ | ⟨_, heqz⟩
                · rw [hdx] at hdz
                  injection hdz with hdze
                  exact ⟨c + w, hentry, by omega⟩
                · have hdx' : dist z = some dx := by rw [← heqz]; exact hdx
                  obtain ⟨cc, hcc, hccle⟩ := h3 z hxv dx hdx'
                  rcases hcases _ hcc with heqq | hin
                  · injection heqq with _ hse
                    exact absurd hse hxu
                  · exact ⟨cc, hA2 _ hin, hccle⟩
              · have heqz : stN.1 x = dist x := hA1 x hk
                have hdx' : dist x = some dx := by rw [← heqz]; exact hdx
                obtain ⟨cc, hcc, hccle⟩ := h3 x hxv dx hdx'
                rcases hcases _ hcc with heqq | hin
                · injection heqq with _ hse
                  exact absurd hse hxu
                · exact ⟨cc, hA2 _ hin, hccle⟩
            · -- finalized nodes have relaxed all their out-edges
              intro v hv z w hwz
              rcases List.mem_cons.mp hv with rfl | hv'
              · by_cases hzv : z ∈ v :: visited
                · exact Or.inl hzv
                · right
                  have hzn := hwOf_nb z w hwz
                  rcases hA8 z w hzn hzv with ⟨hdz, _⟩ | ⟨hfalse, heqz⟩
                  · exact ⟨c + w, c, hdz, hdistu, le_refl _⟩
                  · obtain ⟨b, hb, hble⟩ := ltE_false_le hfalse
                    exact ⟨b, c, by rw [heqz]; exact hb, hdistu, by linarith⟩
              · rcases h4 v hv' z w hwz with hz | ⟨dz, dv, hdz, hdv, hle⟩
                · exact Or.inl (List.mem_cons_of_mem u hz)
                · right
                  obtain ⟨dz', hdz', hdz'le⟩ := hA5 z dz hdz
                  refine ⟨dz', dv, hdz', ?_, by linarith⟩
                  rw [hA6 v (List.mem_cons_of_mem u hv')]
                  exact hdv
            · -- finalized distances are optimal
              intro v hv
              rcases List.mem_cons.mp hv with rfl | hv'
              · exact ⟨c, hdistu, hmin⟩
              · obtain ⟨dv, hdv, hmindv⟩ := h5 v hv'
                exact ⟨dv, by rw [hA6 v (List.mem_cons_of_mem u hv')]; exact hdv,
                  hmindv⟩
            · -- heap entries dominate the dist map
              intro e he
              rcases hA3 e he with h | ⟨z, w, hzw, heq, hzv, hdz⟩
              · obtain ⟨dx, hdx, hdxle⟩ := h7 e (hsub e h)
                obtain ⟨d', hd', hd'le⟩ := hA5 e.2 dx hdx
                exact ⟨d', hd', by linarith⟩
              · subst heq
                exact ⟨c + w, hdz, le_refl _⟩
            · -- heap entries name graph nodes
              intro e he
              rcases hA3 e he with h | ⟨z, w, hzw, heq, _, _⟩
              · exact h8 e (hsub e h)
              · subst heq
                exact edge_tgt_mem hwf (mem_neighbors_edges hzw)
          have htv' : t ∉ u :: visited := by
            intro hc
            rcases List.mem_cons.mp hc with h | h
            · exact hut h.symm
            · exact htv h
          have hcnt := filter_cons_visited hwf.1 (h8 (c, u) hcu) hu
          have hnbl := neighbors_length_le g u
          have hexp : (g.nodes.filter (fun x => x ∉ visited)).length *
              (g.edges.length + 1) =
              (g.nodes.filter (fun x => x ∉ u :: visited)).length *
                (g.edges.length + 1) + (g.edges.length + 1) := by
            rw [← hcnt]
            ring
          have hbound' : stN.2.2.length +
              (g.nodes.filter (fun x => x ∉ u :: visited)).length *
                (g.edges.length + 1) < f := by
            rw [hexp] at hbound
            rw [← hlen'] at hbound
            linarith
          obtain ⟨p, cres, hrun, hsound, hminl⟩ :=
            ih stN.2.2 stN.1 stN.2.1 (u :: visited) inv'' htv' hbound'
          refine ⟨p, cres, ?_, hsound, hminl⟩
          simp only [dijkstraLoop, hpop]
          rw [if_neg hu, if_neg hut]
          exact hrun

lemma dijkstra_optimal {g : Graph} (hwf : Wf g)
    (hneg : g.hasNegativeWeights = false) {s t : String}
    (hs : s ∈ g.nodes) (ht : t ∈ g.nodes) (hreach : Reach g s t) :
    ∃ p c, dijkstra g s t = .ok (p, c) ∧
      (∃ l, Walks g s t l ∧ walkWt g l = c) ∧
      (∀ l, Walks g s t l → c ≤ walkWt g l) := by
  have hnn := hasNeg_false_iff.mp hneg
  have hfilter : g.nodes.filter (fun x => x ∉ ([] : List String)) = g.nodes := by
    apply List.filter_eq_self.mpr
    intro a _
    simp
  have hbound : ([((0 : ℤ), s)]).length +
      (g.nodes.filter (fun x => x ∉ ([] : List String))).length *
        (g.edges.length + 1) < dijkstraFuel g := by
    rw [hfilter]
    simp only [List.length_singleton, dijkstraFuel]
    linarith
  obtain ⟨p, c, hrun, hsound, hminl⟩ :=
    dijkstraLoop_correct hwf hnn hreach (dijkstraFuel g) [(0, s)]
      (fun v => if v = s then some 0 else none) (fun _ => none) []
      (dinv_init hs) (by simp) hbound
  refine ⟨p, c, ?_, hsound, hminl⟩
  simp only [dijkstra, hneg, Bool.false_eq_true, if_false]
  rw [if_neg (not_not_intro hs), if_neg (not_not_intro ht), hrun]

/-- C2 (counterexample): on the diamond graph, which is free of negative
weights and in which `D` is reachable from `A`, Dijkstra and
Bellman-Ford both succeed with the same optimal cost 2 but return
different node sequences (`A-B-D` versus `A-C-D`), refuting the claim
that the two algorithms return the identical path. -/
theorem C2_path_identity_counterexample :
    diamondGraph.hasNegativeWeights = false ∧
    Walks diamondGraph "A" "D" ["A", "C", "D"] ∧
    dijkstra diamondGraph "A" "D" = .ok (["A", "B", "D"], 2) ∧
    bellmanFord diamondGraph "A" "D" = .ok (["A", "C", "D"], 2) ∧
    (["A", "B", "D"] : List String) ≠ ["A", "C", "D"] :=
  ⟨by decide, ⟨by decide, by decide, by decide⟩, by decide, by decide, by decide⟩

/-- C2 (amended): for every well-formed graph without negative edge
weights and every pair of nodes with the goal reachable from the start,
`DijkstraAlgorithm.compute` and `BellmanFordAlgorithm.compute` both
succeed and report exactly the same (optimal) path cost; the node
sequences they return may differ between algorithms. -/
theorem C2_amended_equal_cost {g : Graph} (hwf : Wf g)
    (hneg : g.hasNegativeWeights = false) {s t : String}
    (hs : s ∈ g.nodes) (ht : t ∈ g.nodes) (hreach : Reach g s t) :
    ∃ p1 p2 c, dijkstra g s t = .ok (p1, c) ∧
      bellmanFord g s t = .ok (p2, c) := by
  obtain ⟨p1, c1, hd, ⟨l1, hl1, hwt1⟩, hmin1⟩ :=
    dijkstra_optimal hwf hneg hs ht hreach
  obtain ⟨p2, c2, hb, ⟨l2, hl2, hwt2⟩, hmin2⟩ :=
    bellmanFord_optimal hwf hneg hs ht hreach
  have h12 : c1 ≤ c2 := by
    have := hmin1 l2 hl2
    omega
  have h21 : c2 ≤ c1 := by
    have := hmin2 l1 hl1
    omega
  have hcc : c1 = c2 := le_antisymm h12 h21
  exact ⟨p1, p2, c1, hd, by rw [hcc]; exact hb⟩

/-- C2 (amended, concrete witness): on the diamond graph both
algorithms succeed from `A` to `D` with one common cost. -/
theorem C2_amended_equal_cost_witness :
    ∃ p1 p2 c, dijkstra diamondGraph "A" "D" = .ok (p1, c) ∧
      bellmanFord diamondGraph "A" "D" = .ok (p2, c) :=
  C2_amended_equal_cost (wf_fromEdgeList _) (by decide) (by decide) (by decide)
    ⟨["A", "C", "D"], by decide, by decide, by decide⟩

/-- C3: for every graph containing at least one negative-weight edge,
`DijkstraAlgorithm.compute` raises the negative-weight rejection error
before any node validation or path computation, for every start and
goal (reachability and even node existence are irrelevant because the
weight check comes first); it never returns a result. -/
theorem C3_dijkstra_rejects_negative_weights (g : Graph) (s t : String)
    (h : g.hasNegativeWeights = true) :
    dijkstra g s t = .error .negativeWeight :=
  dijkstra_neg g s t h

/-- C3 witness: the negative-edge graph `A→B:-1` with a start node that
does not even exist in the graph. -/
theorem C3_dijkstra_rejects_negative_weights_witness :
    negEdgeGraph.hasNegativeWeights = true ∧
      dijkstra negEdgeGraph "Z" "B" = .error .negativeWeight :=
  ⟨by decide, C3_dijkstra_rejects_negative_weights negEdgeGraph "Z" "B" (by decide)⟩

/-- C4: on the example graph `A→B:5, A→C:2, C→D:1, D→F:-3, F→B:1,
A→E:1, E→B:6`, the hint `"auto"` selects Bellman-Ford (the graph has a
negative weight), `BellmanFordAlgorithm.compute` returns exactly the
path `[A, C, D, F, B]` with cost `1`, and `compute_route` returns a
success response carrying that path, cost `1.0` and algorithm
`bellman_ford`. -/
theorem C4_concrete_scenario :
    selectAlgorithm exampleGraphC4 "auto" = .ok .bellmanFordAlg ∧
    bellmanFord exampleGraphC4 "A" "B" = .ok (["A", "C", "D", "F", "B"], 1) ∧
    (computeRoute freshCache exampleGraphC4
        ⟨"r1", "g1", "A", "B", "auto", true⟩ 0).1 =
      { requestId := "r1", status := "success",
        path := some ["A", "C", "D", "F", "B"], cost := some 1,
        algorithmUsed := some "bellman_ford", cacheHit := false,
        errorCode := none } := by
  refine ⟨by decide, by decide, by decide⟩

/-- C5 counterexample: with `failure_threshold = 2`, the trace
failure, success, failure on a fresh breaker ends with the circuit
OPEN even though no two consecutive calls failed — the middle success
is dispatched while CLOSED yet leaves `failure_count = 1` instead of
resetting it to `0`, so the breaker opens after cumulative rather than
consecutive failures, contradicting the claim. -/
theorem C5_consecutiveness_counterexample :
    (cbCall (cbNew 2 60) 0 false).1 = .failed ∧
    (cbCall (cbCall (cbNew 2 60) 0 false).2 1 true).1 = .succeeded ∧
    (cbCall (cbCall (cbNew 2 60) 0 false).2 1 true).2.state = .closed ∧
    (cbCall (cbCall (cbNew 2 60) 0 false).2 1 true).2.failureCount = 1 ∧
    (cbCall (cbCall (cbCall (cbNew 2 60) 0 false).2 1 true).2 2 false).2.state
      = .opened := by
  decide

/-- C5 (amended): the breaker opens once `failure_threshold` cumulative
failures accrue while CLOSED — a success while CLOSED is dispatched but
leaves the breaker state (including the failure count) unchanged; while
OPEN and before `timeout_duration` has elapsed since the last failure,
every call is rejected with `CircuitBreakerOpenError` and the wrapped
work is not dispatched, the state being left unchanged; once the
timeout has elapsed, exactly one trial call is dispatched through
HALF_OPEN, whose success closes the circuit and resets the failure
counter and whose failure reopens the circuit and restarts the
cool-down clock; no call ever leaves the breaker parked in HALF_OPEN. -/
theorem C5_amended_breaker_step (cb : CB) (now : ℤ) (ok : Bool) :
    (cb.state = .opened → shouldAttemptReset cb now = false →
      cbCall cb now ok = (.rejected, cb)) ∧
    (cb.state = .opened → shouldAttemptReset cb now = true →
      (cbCall cb now ok).1 ≠ .rejected ∧
      (ok = true → (cbCall cb now ok).2.state = .closed ∧
        (cbCall cb now ok).2.failureCount = 0) ∧
      (ok = false → (cbCall cb now ok).2.state = .opened ∧
        (cbCall cb now ok).2.failureCount = cb.failureCount + 1 ∧
        (cbCall cb now ok).2.lastFailureTime = some now)) ∧
    (cb.state = .closed →
      (cbCall cb now ok).1 ≠ .rejected ∧
      (ok = true → (cbCall cb now ok).2 = cb) ∧
      (ok = false →
        (cbCall cb now ok).2.failureCount = cb.failureCount + 1 ∧
        (cb.failureThreshold ≤ cb.failureCount + 1 →
          (cbCall cb now ok).2.state = .opened) ∧
        (cb.failureCount + 1 < cb.failureThreshold →
          (cbCall cb now ok).2.state = .closed))) ∧
    (cbCall cb now ok).2.state ≠ .halfOpen := by
  obtain ⟨thr, dur, fc, lft, st⟩ := cb
  refine ⟨?_, ?_, ?_, ?_⟩
  · rintro rfl hres
    simp [cbCall, hres]
  · rintro rfl hres
    simp only [cbCall, hres, if_true, cbDispatch]
    cases ok <;> simp [cbOnSuccess, cbOnFailure]
  · rintro rfl
    refine ⟨?_, fun hok => ?_, fun hok => ?_⟩
    · cases ok <;> simp [cbCall, cbDispatch]
    · subst hok; rfl
    · subst hok
      have hred : cbCall ⟨thr, dur, fc, lft, .closed⟩ now false =
          (.failed, cbOnFailure ⟨thr, dur, fc, lft, .closed⟩ now) := rfl
      rw [hred]
      unfold cbOnFailure
      simp only [show (CBState.closed = CBState.halfOpen) = False by simp,
        if_false]
      refine ⟨?_, fun hth => ?_, fun hth => ?_⟩
      · split_ifs <;> rfl
      · rw [if_pos hth]
      · have hneg : ¬ thr ≤ fc + 1 := by omega
        rw [if_neg hneg]
  · cases st <;> cases ok <;>
      simp [cbCall, cbDispatch, cbOnSuccess, cbOnFailure] <;>
      split_ifs <;> simp

/-- C5 witness: the amended properties instantiated on concrete
breakers: an OPEN breaker 10 seconds into a 60-second cool-down rejects
and is unchanged; an OPEN breaker whose cool-down has elapsed closes on
a successful trial with the counter reset; a CLOSED breaker is left
unchanged by a success. -/
theorem C5_amended_breaker_step_witness :
    cbCall ⟨2, 60, 2, some 0, .opened⟩ 10 true =
      (.rejected, ⟨2, 60, 2, some 0, .opened⟩) ∧
    ((cbCall ⟨2, 60, 2, some 0, .opened⟩ 60 true).2.state = .closed ∧
      (cbCall ⟨2, 60, 2, some 0, .opened⟩ 60 true).2.failureCount = 0) ∧
    (cbCall ⟨2, 60, 1, some 0, .closed⟩ 5 true).2 = ⟨2, 60, 1, some 0, .closed⟩ := by
  refine ⟨(C5_amended_breaker_step _ 10 true).1 rfl (by decide),
    ((C5_amended_breaker_step _ 60 true).2.1 rfl (by decide)).2.1 rfl,
    ((C5_amended_breaker_step _ 5 true).2.2.1 rfl).2.1 rfl⟩

/-- C6 counterexample: the two requests below are identical except for
their algorithm hints (`bellman_ford` vs `dijkstra`), yet their cache
keys are identical — `compute_route` builds the key from request id,
graph id, start and goal only — and on the graph `A→B:-1` the second
request is served the first one's cached Bellman-Ford success (cache
hit) even though running Dijkstra would have rejected the graph. -/
theorem C6_fingerprint_counterexample :
    (RouteRequest.mk "r1" "g1" "A" "B" "bellman_ford" true).algorithmHint ≠
      (RouteRequest.mk "r1" "g1" "A" "B" "dijkstra" true).algorithmHint ∧
    makeKey "r1" "g1" "A" "B" = makeKey "r1" "g1" "A" "B" ∧
    ((computeRoute
        (computeRoute freshCache negEdgeGraph
          ⟨"r1", "g1", "A", "B", "bellman_ford", true⟩ 0).2 negEdgeGraph
        ⟨"r1", "g1", "A", "B", "dijkstra", true⟩ 1).1.cacheHit = true ∧
      (computeRoute
        (computeRoute freshCache negEdgeGraph
          ⟨"r1", "g1", "A", "B", "bellman_ford", true⟩ 0).2 negEdgeGraph
        ⟨"r1", "g1", "A", "B", "dijkstra", true⟩ 1).1.status = "success" ∧
      (computeRoute
        (computeRoute freshCache negEdgeGraph
          ⟨"r1", "g1", "A", "B", "bellman_ford", true⟩ 0).2 negEdgeGraph
        ⟨"r1", "g1", "A", "B", "dijkstra", true⟩ 1).1.algorithmUsed =
        some "bellman_ford") ∧
    dijkstra negEdgeGraph "A" "B" = .error .negativeWeight := by
  decide

/-- C6 (amended): the idempotency-cache key built by `compute_route` is
a deterministic function of the request id, graph id, start node and
goal node only — the algorithm hint is not part of it, so two requests
identical except for their hints share a fingerprint and the second is
served the first one's cached result; and whenever the cache holds a
response under a request's fingerprint, `compute_route` returns exactly
that response (marked as a cache hit) — identical fingerprints are
treated as the same request. -/
theorem C6_amended_fingerprint :
    (∀ r1 r2 : RouteRequest, r1.requestId = r2.requestId →
      r1.graphId = r2.graphId → r1.startNode = r2.startNode →
      r1.goalNode = r2.goalNode →
      makeKey r1.requestId r1.graphId r1.startNode r1.goalNode =
        makeKey r2.requestId r2.graphId r2.startNode r2.goalNode) ∧
    (∀ (cache : Cache RouteResponse) (g : Graph) (req : RouteRequest)
      (now : ℤ) (r : RouteResponse),
      (cacheGet cache
        (makeKey req.requestId req.graphId req.startNode req.goalNode) now).1 =
          some r →
      (computeRoute cache g req now).1 = { r with cacheHit := true }) := by
  constructor
  · intro r1 r2 h1 h2 h3 h4
    rw [h1, h2, h3, h4]
  · intro cache g req now r hit
    cases hcg : cacheGet cache
        (makeKey req.requestId req.graphId req.startNode req.goalNode) now with
    | mk o c2 =>
      rw [hcg] at hit
      simp only at hit
      subst hit
      simp only [computeRoute]
      rw [hcg]

/-- C6 witness: the serving clause applied to a concrete one-entry
cache holding a response under the fingerprint of a request. -/
theorem C6_amended_fingerprint_witness :
    (computeRoute
      ⟨1000, 300,
        [(makeKey "r9" "g9" "A" "B",
          ⟨0, 300, ⟨"r9", "success", some ["A", "B"], some 1, some "dijkstra",
            false, none⟩⟩)],
        [makeKey "r9" "g9" "A" "B"]⟩
      negEdgeGraph ⟨"r9", "g9", "A", "B", "auto", true⟩ 1).1 =
      ⟨"r9", "success", some ["A", "B"], some 1, some "dijkstra", true, none⟩ := by
  have h := C6_amended_fingerprint.2
    ⟨1000, 300,
      [(makeKey "r9" "g9" "A" "B",
        ⟨0, 300, ⟨"r9", "success", some ["A", "B"], some 1, some "dijkstra",
          false, none⟩⟩)],
      [makeKey "r9" "g9" "A" "B"]⟩
    negEdgeGraph ⟨"r9", "g9", "A", "B", "auto", true⟩ 1
    ⟨"r9", "success", some ["A", "B"], some 1, some "dijkstra", false, none⟩
    (by decide)
  exact h

/-- C7: idempotency-cache behaviour, for every reachable cache state
(`CacheInv`): (i) a `put` of a new key at capacity evicts exactly the
least-recently-used entry — the head of the access order, which orders
keys by last access, not insertion — before inserting, leaving every
other entry untouched; (ii) a non-expired `get` counts as a use: the
fetched key is protected from the next eviction (it survives
`_evict_lru` on the resulting cache, which has at least one other
candidate to evict); (iii) a `get` of an entry strictly older than its
TTL returns absent and eagerly removes the entry from both the map and
the access order. -/
theorem C7_cache_lru_ttl {α : Type} (c : Cache α) (hinv : CacheInv c) :
    (∀ key v now k0 rest, c.entries.length = c.maxsize →
      lookupKey c.entries key = none →
      c.accessOrder = k0 :: rest →
      lookupKey (cachePut c key v none now).entries k0 = none ∧
      lookupKey (cachePut c key v none now).entries key =
        some ⟨now, c.defaultTtl, v⟩ ∧
      (∀ k, k ≠ k0 → k ≠ key →
        lookupKey (cachePut c key v none now).entries k = lookupKey c.entries k) ∧
      (cachePut c key v none now).accessOrder = rest ++ [key]) ∧
    (∀ k e now, lookupKey c.entries k = some e →
      ¬ (now - e.timestamp > e.ttl) → 2 ≤ c.accessOrder.length →
      (cacheGet c k now).1 = some e.result ∧
      lookupKey (evictLru (cacheGet c k now).2).entries k = some e) ∧
    (∀ k e now, lookupKey c.entries k = some e →
      now - e.timestamp > e.ttl →
      (cacheGet c k now).1 = none ∧
      lookupKey (cacheGet c k now).2.entries k = none ∧
      k ∉ (cacheGet c k now).2.accessOrder) := by
  obtain ⟨hnd, hperm⟩ := hinv
  refine ⟨?_, ?_, ?_⟩
  · intro key v now k0 rest hcap hnew horder
    have hkeyord : key ∉ c.accessOrder := by
      intro hc
      exact (lookup_none_iff _ _).mp hnew (hperm.subset hc)
    have hk0mem : k0 ∈ c.accessOrder := by
      rw [horder]; exact List.mem_cons_self _ _
    have hk0key : k0 ≠ key := fun h => hkeyord (h ▸ hk0mem)
    have hcond : c.maxsize ≤ c.entries.length ∧
        (lookupKey c.entries key).isNone = true :=
      ⟨le_of_eq hcap.symm, by rw [hnew]; rfl⟩
    have hevict : evictLru c =
        { c with entries := eraseKey c.entries k0, accessOrder := rest } := by
      unfold evictLru
      rw [horder]
    have hrest : key ∉ rest := fun hc =>
      hkeyord (horder ▸ List.mem_cons_of_mem _ hc)
    have hput : cachePut c key v none now =
        { c with
          entries := setEntry (eraseKey c.entries k0) key ⟨now, c.defaultTtl, v⟩,
          accessOrder := rest ++ [key] } := by
      unfold cachePut
      rw [if_pos hcond, hevict]
      simp [hrest]
    rw [hput]
    refine ⟨?_, ?_, ?_, rfl⟩
    · rw [lookup_setEntry_ne _ _ hk0key, lookup_eraseKey_self]
    · rw [lookup_setEntry_self]
    · intro k hk0 hkey
      rw [lookup_setEntry_ne _ _ hkey, lookup_eraseKey_ne _ hk0]
  · intro k e now hk hnotexp hlen
    have hget : cacheGet c k now =
        (some e.result,
          { c with accessOrder := c.accessOrder.erase k ++ [k] }) := by
      unfold cacheGet
      rw [hk]
      simp [hnotexp]
    have hkord : k ∈ c.accessOrder :=
      hperm.mem_iff.mpr ((lookup_isSome_iff _ _).mp (by rw [hk]; rfl))
    have hlenerase : (c.accessOrder.erase k).length =
        c.accessOrder.length - 1 := List.length_erase_of_mem hkord
    refine ⟨by rw [hget], ?_⟩
    cases herase : c.accessOrder.erase k with
    | nil =>
      rw [herase] at hlenerase
      simp at hlenerase
      omega
    | cons h0 tl =>
      have hh0 : h0 ∈ c.accessOrder.erase k := by
        rw [herase]; exact List.mem_cons_self _ _
      have hh0k : h0 ≠ k := ((hnd.mem_erase_iff).mp hh0).1
      have hev : evictLru (cacheGet c k now).2 =
          { c with entries := eraseKey c.entries h0,
                   accessOrder := tl ++ [k] } := by
        rw [hget]
        unfold evictLru
        simp only [herase, List.cons_append]
      rw [hev]
      simp only
      rw [lookup_eraseKey_ne _ (fun hc => hh0k hc.symm), hk]
  · intro k e now hk hexp
    have hget : cacheGet c k now =
        (none,
          { c with entries := eraseKey c.entries k,
                   accessOrder := c.accessOrder.erase k }) := by
      unfold cacheGet
      rw [hk]
      simp [hexp]
    rw [hget]
    refine ⟨rfl, lookup_eraseKey_self _ _, ?_⟩
    simp only
    intro hc
    exact ((hnd.mem_erase_iff).mp hc).1 rfl

/-- C7 witness: a concrete two-entry cache at capacity 2 whose access
order is `[k1, k2]`: putting the fresh key `k3` evicts exactly `k1`;
a hit on `k1` protects it from the following eviction; an expired entry
is removed by `get`. -/
theorem C7_cache_lru_ttl_witness :
    (lookupKey (cachePut
        (⟨2, 300, [("k1", ⟨0, 300, 7⟩), ("k2", ⟨1, 300, 8⟩)], ["k1", "k2"]⟩ :
          Cache ℤ) "k3" 9 none 2).entries "k1" = none ∧
      (cachePut (⟨2, 300, [("k1", ⟨0, 300, 7⟩), ("k2", ⟨1, 300, 8⟩)],
        ["k1", "k2"]⟩ : Cache ℤ) "k3" 9 none 2).accessOrder =
        ["k2", "k3"]) ∧
    lookupKey (evictLru (cacheGet
      (⟨2, 300, [("k1", ⟨0, 300, 7⟩), ("k2", ⟨1, 300, 8⟩)], ["k1", "k2"]⟩ :
        Cache ℤ) "k1" 2).2).entries "k1" = some ⟨0, 300, 7⟩ ∧
    (cacheGet (⟨2, 300, [("k1", ⟨0, 300, 7⟩), ("k2", ⟨1, 300, 8⟩)],
      ["k1", "k2"]⟩ : Cache ℤ) "k1" 400).1 = none := by
  have h := C7_cache_lru_ttl
    (⟨2, 300, [("k1", ⟨0, 300, 7⟩), ("k2", ⟨1, 300, 8⟩)], ["k1", "k2"]⟩ :
      Cache ℤ) (by constructor <;> decide)
  have h1 := h.1 "k3" 9 2 "k1" ["k2"] (by decide) (by decide) (by decide)
  have h2 := h.2.1 "k1" ⟨0, 300, 7⟩ 2 (by decide) (by decide) (by decide)
  have h3 := h.2.2 "k1" ⟨0, 300, 7⟩ 400 (by decide) (by decide)
  exact ⟨⟨h1.1, h1.2.2.2⟩, h2.2, h3.1⟩

/-- C8 counterexample: the `oswe-large-rapd-m4s90` `StateMachine`
performs no validation at all — a fresh machine in INIT accepts a
direct transition to SUCCESS (outside the claimed legal relation): the
state changes to SUCCESS instead of being rejected and left
unchanged. -/
theorem C8_unvalidated_transition_counterexample :
    (rapdTransition rapdNew .SUCCESS "skip").state = .SUCCESS ∧
    (rapdTransition rapdNew .SUCCESS "skip").history = [(.INIT, "skip")] ∧
    PlanStatus.SUCCESS ≠ PlanStatus.INIT := by
  decide

/-- C8 (amended): the `oswe-large-rapd-m4s90` state machine applies any
requested transition unconditionally (recording the old state in its
history), while the `raptor-secondary` state machine permits exactly
the transitions INIT→IN_PROGRESS, IN_PROGRESS→{CONFIRMED, FAILED,
COMPENSATING}, CONFIRMED→COMPENSATING, COMPENSATING→{COMPENSATED,
FAILED} and FAILED→IN_PROGRESS, rejecting every other request —
in particular every transition out of COMPENSATED. -/
theorem C8_amended_transition_relation :
    (∀ (m : RapdStateMachine) (ns : PlanStatus) (r : String),
      (rapdTransition m ns r).state = ns ∧
      (rapdTransition m ns r).history = m.history ++ [(m.state, r)]) ∧
    (∀ c t : AppointmentState, canTransition c t = true ↔
      (c, t) ∈ ([(.INIT, .IN_PROGRESS), (.IN_PROGRESS, .CONFIRMED),
        (.IN_PROGRESS, .FAILED), (.IN_PROGRESS, .COMPENSATING),
        (.CONFIRMED, .COMPENSATING), (.COMPENSATING, .COMPENSATED),
        (.COMPENSATING, .FAILED), (.FAILED, .IN_PROGRESS)] :
        List (AppointmentState × AppointmentState))) ∧
    (∀ c t : AppointmentState, (raptorTransition c t).1 = canTransition c t) ∧
    (∀ t : AppointmentState, canTransition .COMPENSATED t = false) := by
  refine ⟨fun m ns r => ⟨rfl, rfl⟩, fun c t => ?_, fun c t => ?_, fun t => ?_⟩
  · cases c <;> cases t <;> decide
  · by_cases h : canTransition c t = true <;> simp [raptorTransition, h]
  · cases t <;> decide

/-- C10: for every graph (built from any edge list) containing a node
`s`, a route request with `start = goal = s` and result validation
enabled never yields a success: the result validator rejects any path
with fewer than two nodes, the Dijkstra algorithm produces exactly the
single-node path `[s]` with cost 0 on non-negative graphs (Bellman-Ford
likewise, unless it raises the negative-cycle error), and
`compute_route` — for every algorithm hint — returns an error response
with no path. -/
theorem C10_start_equals_goal_rejected (es : List Edge)
    (s rid gid hint : String) (now : ℤ)
    (hs : s ∈ (Graph.fromEdgeList es).nodes) :
    (∀ (g : Graph) (p : List String) (c : ℤ), p.length < 2 →
      validatePath g p c = false) ∧
    ((Graph.fromEdgeList es).hasNegativeWeights = false →
      dijkstra (Graph.fromEdgeList es) s s = .ok ([s], 0)) ∧
    (computeRoute freshCache (Graph.fromEdgeList es)
        ⟨rid, gid, s, s, hint, true⟩ now).1.status = "error" ∧
    (computeRoute freshCache (Graph.fromEdgeList es)
        ⟨rid, gid, s, s, hint, true⟩ now).1.path = none := by
  refine ⟨?_, ?_, ?_, ?_⟩
  · intro g p c h
    unfold validatePath
    rw [if_pos h]
  · intro hneg
    exact dijkstra_self hneg hs
  · exact (computeRoute_fresh_self es s rid gid hint now hs).1
  · exact (computeRoute_fresh_self es s rid gid hint now hs).2

/-- C10 witness: the start-equals-goal rejection on the example graph
with `start = goal = A` and hint `"auto"`. -/
theorem C10_start_equals_goal_rejected_witness :
    validatePath exampleGraphC4 ["A"] 0 = false ∧
    (computeRoute freshCache exampleGraphC4
        ⟨"r", "g", "A", "A", "auto", true⟩ 0).1.status = "error" ∧
    (computeRoute freshCache exampleGraphC4
        ⟨"r", "g", "A", "A", "auto", true⟩ 0).1.path = none := by
  have h := C10_start_equals_goal_rejected
    [("A", "B", 5), ("A", "C", 2), ("C", "D", 1), ("D", "F", -3),
      ("F", "B", 1), ("A", "E", 1), ("E", "B", 6)]
    "A" "r" "g" "auto" 0 (by decide)
  exact ⟨h.1 exampleGraphC4 ["A"] 0 (by decide), h.2.2.1, h.2.2.2⟩

/-- C9 counterexample: on the empty graph, the greenfield
`compute_route` fails node validation (`GraphValidationError`) and so
returns the error code `INVALID_GRAPH`, not `EMPTY_GRAPH`, refuting
the claim that every route request on the empty graph fails with
`EMPTY_GRAPH`. -/
theorem C9_empty_graph_counterexample :
    (computeRoute freshCache Graph.empty ⟨"r", "g", "A", "B", "auto", true⟩
        0).1.errorCode = some "INVALID_GRAPH" ∧
    (computeRoute freshCache Graph.empty ⟨"r", "g", "A", "B", "auto", true⟩
        0).1.status = "error" ∧
    (computeRoute freshCache Graph.empty ⟨"r", "g", "A", "B", "auto", true⟩
        0).1.path = none ∧
    ("INVALID_GRAPH" : String) ≠ "EMPTY_GRAPH" := by
  decide

/-- C9 (amended): in `routing_v2` (the `Claude-haiku-4.5` variant),
every route request against the empty graph fails validation with
exactly the single error code `EMPTY_GRAPH` (not `NODE_NOT_FOUND` or
any other code), and the resulting response has status `"error"`, the
error code `EMPTY_GRAPH` and no path; the greenfield engine instead
reports `INVALID_GRAPH` for the same situation. -/
theorem C9_amended_empty_graph (start goal : String) :
    hValidateGraph hEmptyGraph start goal = (false, ["EMPTY_GRAPH"]) ∧
    hComputeInvalid hEmptyGraph start goal =
      ⟨none, none, "error", some "EMPTY_GRAPH"⟩ := by
  constructor
  · rfl
  · rfl

end Routing
